import Mathlib

/-!
Verification of the XFS project-quota manager (`pkg/volume/quota.go`).

The Go code is shallowly embedded: the projects file is a `List Char`, the
allocator's `projectIds` map is a `List Nat` used as a set, and the external
side effects (file I/O, `xfs_quota` sub-processes, `os.Stat`) are driven by an
explicit environment `Env` that decides whether each external operation
succeeds.  Each public operation of `xfsQuotaer` becomes a pure function of
the state and the environment, additionally emitting the list of external
calls it performs.
-/

namespace Quota

/-- File contents and textual tokens are lists of characters. -/
abbrev Str := List Char

/-! ## Decimal rendering and parsing (`strconv.FormatUint` / `strconv.ParseUint`) -/

/-- Little-endian base-10 digits of `n`, with explicit fuel so that the
recursion is structural. -/
def natDigitsRev : Nat → Nat → List Nat
  | 0, _ => []
  | fuel + 1, n => if n = 0 then [] else n % 10 :: natDigitsRev fuel (n / 10)

/-- Decimal rendering of a natural number, as Go's
`strconv.FormatUint(n, 10)` produces it: `0` renders as `"0"`, any other
number as its decimal digits, most significant first. -/
def natToChars (n : Nat) : Str :=
  if n = 0 then ['0'] else ((natDigitsRev n n).map Nat.digitChar).reverse

/-- Numeric value of one decimal digit character. -/
def charDigit (c : Char) : Nat := c.toNat - 48

/-- Value of a big-endian decimal digit string, with no overflow. -/
def digitsToNat (ds : Str) : Nat := ds.foldl (fun a c => 10 * a + charDigit c) 0

/-- Go's `strconv.ParseUint(s, 10, 16)` with its error ignored, as the code
does at `quota.go:149` (`projectId, _ := strconv.ParseUint(...)`): on a range
error `ParseUint` returns the maximum 16-bit value together with `ErrRange`,
so discarding the error saturates the result at `65535`. -/
def parseUint16Sat (ds : Str) : Nat := min (digitsToNat ds) 65535

/-! ## List-of-characters utilities mirroring the Go string operations -/

/-- Boolean prefix test on character lists. -/
def isPre : Str → Str → Bool
  | [], _ => true
  | _ :: _, [] => false
  | a :: as, b :: bs => a = b && isPre as bs

/-- Boolean substring-occurrence test on character lists. -/
def occursB (pat : Str) : Str → Bool
  | [] => isPre pat []
  | l@(_ :: rest) => isPre pat l || occursB pat rest

/-- Modelled from the spec: the record store's `remove(block)` ("deletes the
exact previously-returned block text from the file", removal being
"content-addressed (exact substring match)").  The implementation
(`removeFromFile` in the repository's util file, absent from `src/`) deletes
the first occurrence of the block text from the file and leaves the file
unchanged when the text does not occur. -/
def removeFirst (pat : Str) : Str → Str
  | [] => []
  | c :: rest =>
    if isPre pat (c :: rest) then (c :: rest).drop pat.length else c :: removeFirst pat rest

/-- Split a character list at every newline, like Go's line-oriented regexp
scanning of the projects file; the separators are consumed. -/
def splitNewline : Str → List Str
  | [] => [[]]
  | c :: rest =>
    if c = '\n' then [] :: splitNewline rest
    else
      match splitNewline rest with
      | [] => [[c]]
      | l :: ls => (c :: l) :: ls

/-! ## The projects-file record format -/

/-- One parsed projects-file record: the three submatches of the restore
regexp `(?m:\n^([0-9]+):(.+):(.+)$\n)` at `quota.go:145`, kept as raw text
exactly as `restoreQuotas` keeps `match[1]`, `match[2]`, `match[3]`. -/
structure Rec where
  tagStr : Str
  dir : Str
  bhard : Str
deriving DecidableEq, Repr

/-- The record line `id:directory:limit`. -/
def mkLine (idStr dir bhard : Str) : Str := idStr ++ ':' :: (dir ++ ':' :: bhard)

/-- A line framed by one leading and one trailing newline, the block shape
`AddProject` appends (`quota.go:173`). -/
def mkBlockL (l : Str) : Str := '\n' :: l ++ ['\n']

/-- The block text `"\n" + id + ":" + dir + ":" + bhard + "\n"` built at
`quota.go:173`. -/
def mkBlock (idStr dir bhard : Str) : Str := mkBlockL (mkLine idStr dir bhard)

/-- The whole matched text `match[0]` of a parsed record: its line framed by
the two newlines the regexp consumed. -/
def Rec.block (r : Rec) : Str := mkBlockL (mkLine r.tagStr r.dir r.bhard)

/-! ## The restore regexp, as a line parser

`regexp.FindAllSubmatch` with `(?m:\n^([0-9]+):(.+):(.+)$\n)` finds
successive non-overlapping leftmost matches; each match consumes the newline
before and after a line of the form `digits:(.+):(.+)` where `.` excludes
newlines and the first `(.+)` is greedy (so the directory group extends to
the last colon that still leaves the limit group non-empty). -/

/-- Scan a reversed line tail for the split point of `(.+):(.+)`: the last
colon of the original list that has at least one character on each side. -/
def splitRevColon : Str → Str → Option (Str × Str)
  | _, [] => none
  | acc, c :: rest =>
    if c = ':' ∧ acc ≠ [] ∧ rest ≠ [] then some (rest.reverse, acc.reverse)
    else splitRevColon (acc ++ [c]) rest

/-- Parse one newline-free line against `([0-9]+):(.+):(.+)` with Go's
greedy leftmost submatch semantics. -/
def parseLine (l : Str) : Option Rec :=
  if l.takeWhile Char.isDigit = [] then none
  else
    match l.dropWhile Char.isDigit with
    | ':' :: rest =>
      match splitRevColon [] rest.reverse with
      | some (d, b) => some ⟨l.takeWhile Char.isDigit, d, b⟩
      | none => none
    | _ => none

/-- Walk the newline-separated segments of the file, matching segments that
parse as record lines.  The Boolean says whether the newline before the
current segment is still available (a match consumes the newline on each
side, so the segment right after a match cannot start a new match, exactly
as `FindAllSubmatch` returns non-overlapping matches). -/
def scanLines : Bool → List Str → List Rec
  | _, [] => []
  | _, [_] => []
  | avail, l :: next :: rest =>
    if avail then
      match parseLine l with
      | some r => r :: scanLines false (next :: rest)
      | none => scanLines true (next :: rest)
    else scanLines true (next :: rest)

/-- All records of the projects file, in file order: the submatch list of
`re.FindAllSubmatch(read, -1)` at `quota.go:147`.  The first segment has no
newline before it and the last none after it, so neither can be matched. -/
def parseRecords (f : Str) : List Rec := scanLines false (splitNewline f)

/-- The numeric tags of the file's records, as `restoreQuotas` computes them
(`ParseUint` with the error discarded). -/
def parsedTags (f : Str) : List Nat := (parseRecords f).map fun r => parseUint16Sat r.tagStr

/-! ## The startup scan regexp `(?m:^([0-9]+):/.+$)` (`quota.go:91`) -/

/-- One line of the startup scan: `^([0-9]+):/.+$` matches a line made of
digits, a colon, a slash and at least one further character. -/
def scanLine (l : Str) : Option Nat :=
  if l.takeWhile Char.isDigit = [] then none
  else
    match l.dropWhile Char.isDigit with
    | ':' :: '/' :: _ :: _ => some (parseUint16Sat (l.takeWhile Char.isDigit))
    | _ => none

/-- Modelled from the spec: `getExistingIds` (in the repository's util file,
absent from `src/`), the store's startup `scan()`: a best-effort read
"matching only lines of the form `id:<anything>` to recover previously-known
tags", using the regexp `(?m:^([0-9]+):/.+$)` that `newXfsQuotaer` passes it
at `quota.go:91`; each matching line's digit group is parsed and collected. -/
def scanIds (f : Str) : List Nat := (splitNewline f).filterMap scanLine

/-! ## State, environment, external events -/

/-- The mutable state of an `xfsQuotaer`: the projects-file contents and the
`projectIds` map used as a set of allocated tags (its values are always
`true`, so only key membership matters).  The two mutexes serialize access
and play no role in this sequential embedding. -/
structure QState where
  file : Str
  ids : List Nat
deriving DecidableEq, Repr

/-- Outcomes of the external world: whether file reads/appends/removals
succeed, whether a directory exists (`os.Stat`), and whether each of the two
`xfs_quota` invocations exits with status zero. -/
structure Env where
  readOk : Bool
  scanOk : Bool
  appendOk : Bool
  assocOk : Bool
  removeOk : Bool
  dirExists : Str → Bool
  limitOk : Nat → Str → Str → Bool

/-- Errors of the quota manager, one constructor per distinct failure site
in `quota.go`. -/
inductive QErr where
  | appendFailed
  | xfsQuotaFailed
  | notAdded
  | removeFailed
  | readFailed
  | restoreError (dir : Str) (e : QErr)
deriving DecidableEq, Repr

/-- Externally visible calls, recorded in order: the `xfs_quota project`
command, a `SetQuota` invocation, the `xfs_quota limit` command, and a
`RemoveProject` invocation. -/
inductive Event where
  | assocCmd (dir : Str) (id : Nat)
  | setQuota (id : Nat) (dir bhard : Str)
  | xfsLimit (id : Nat) (dir bhard : Str)
  | removeProj (block : Str) (id : Nat)
deriving DecidableEq, Repr

/-! ## The allocator (`generateId` / `deleteId`) -/

/-- Linear search for a free tag, starting at `cur` with `fuel` candidates
left. -/
def genGo (ids : List Nat) : Nat → Nat → Nat
  | 0, _ => 0
  | fuel + 1, cur => if cur ∈ ids then genGo ids fuel (cur + 1) else cur

/-- Modelled from the spec: the allocator's `allocate()` (`generateId` in the
repository's util file, absent from `src/`): "returns a tag not currently
marked allocated, then marks it allocated" over the tag range `1..65535`,
failing "only if the tag space is exhausted" (here: returning the out-of-range
sentinel `0`, a case excluded by hypothesis wherever it matters). -/
def generateId (ids : List Nat) : Nat := genGo ids 65535 1

/-- Mark a tag allocated (`ids[id] = true` on the Go map). -/
def insertId (ids : List Nat) (id : Nat) : List Nat :=
  if id ∈ ids then ids else id :: ids

/-- Modelled from the spec: the allocator's `release(id)` (`deleteId` in the
repository's util file, absent from `src/`): unmark the tag (Go `delete` on
the map). -/
def deleteId (ids : List Nat) (id : Nat) : List Nat := ids.filter (· ≠ id)

/-! ## The four public operations and the restore procedure -/

/-- Result of an operation that can mutate the state: Go's `error` return
(`none` = nil), the state after the call, and the external calls made. -/
structure RunOut where
  err : Option QErr
  state : QState
  events : List Event
deriving Repr

/-- `xfsQuotaer.AddProject` (`quota.go:168-191`): allocate a tag, build the
block text, append it to the projects file (on failure release the tag and
fail), then run `xfs_quota -x -c 'project -s -p <dir> <id>'` (on failure
release the tag, remove the just-appended block and fail).  The append and
the removal of the block text are the record store's `append`/`remove`,
modelled from the spec as atomic: a failed append leaves the file unchanged.
The rollback ignores `removeFromFile`'s error exactly as the source does. -/
def AddProject (env : Env) (s : QState) (dir bhard : Str) :
    Except QErr (Str × Nat) × QState × List Event :=
  let g := generateId s.ids
  let ids1 := insertId s.ids g
  let block := mkBlock (natToChars g) dir bhard
  if env.appendOk then
    let s1 : QState := ⟨s.file ++ block, ids1⟩
    if env.assocOk then (.ok (block, g), s1, [.assocCmd dir g])
    else
      (.error .xfsQuotaFailed,
        ⟨if env.removeOk then removeFirst block s1.file else s1.file, deleteId ids1 g⟩,
        [.assocCmd dir g])
  else (.error .appendFailed, ⟨s.file, deleteId ids1 g⟩, [])

/-- `xfsQuotaer.RemoveProject` (`quota.go:193-196`): delete the tag from the
allocator set, then remove the block text from the projects file, returning
the removal's error. -/
def RemoveProject (env : Env) (s : QState) (block : Str) (id : Nat) : RunOut :=
  let ids1 := deleteId s.ids id
  if env.removeOk then ⟨none, ⟨removeFirst block s.file, ids1⟩, [.removeProj block id]⟩
  else ⟨some .removeFailed, ⟨s.file, ids1⟩, [.removeProj block id]⟩

/-- `xfsQuotaer.SetQuota` (`quota.go:198-211`): fail with a state error when
the tag is not allocated, otherwise run
`xfs_quota -x -c 'limit -p bhard=<bhard> <id>'` and report its outcome.  The
command is issued (and the event recorded) even when it then fails. -/
def SetQuota (env : Env) (s : QState) (id : Nat) (dir bhard : Str) :
    Option QErr × List Event :=
  if id ∈ s.ids then
    if env.limitOk id dir bhard then (none, [.xfsLimit id dir bhard])
    else (some .xfsQuotaFailed, [.xfsLimit id dir bhard])
  else (some .notAdded, [])

/-- The loop body of `xfsQuotaer.restoreQuotas` (`quota.go:148-163`) over the
already-computed match list: parse the tag (error discarded), then either
clean up a record whose directory no longer exists (`RemoveProject`, its
error ignored, continue) or call `SetQuota` and abort the whole restore when
it fails. -/
def restoreGo (env : Env) : QState → List Rec → RunOut
  | s, [] => ⟨none, s, []⟩
  | s, r :: rs =>
    let pid := parseUint16Sat r.tagStr
    if env.dirExists r.dir then
      match SetQuota env s pid r.dir r.bhard with
      | (some e, evs) => ⟨some (.restoreError r.dir e), s, .setQuota pid r.dir r.bhard :: evs⟩
      | (none, evs) =>
        let rest := restoreGo env s rs
        ⟨rest.err, rest.state, .setQuota pid r.dir r.bhard :: evs ++ rest.events⟩
    else
      let ro := RemoveProject env s r.block pid
      let rest := restoreGo env ro.state rs
      ⟨rest.err, rest.state, ro.events ++ rest.events⟩

/-- `xfsQuotaer.restoreQuotas` (`quota.go:139-166`): read the projects file,
find all record matches, and replay them in file order. -/
def restoreQuotas (env : Env) (s : QState) : RunOut :=
  if env.readOk then restoreGo env s (parseRecords s.file) else ⟨some .readFailed, s, []⟩

/-- The quota-state part of `newXfsQuotaer` (`quota.go:82-109`), after the
path/filesystem/mount/binary validation succeeded: when the projects file
does not exist it is created empty and `projectIds` starts empty; otherwise
`projectIds` is seeded by the startup scan (on a scan error the code only
logs and continues with what the scan returned, modelled as the empty set);
then `restoreQuotas` replays the file. -/
def mkXfsQuotaer (fileExists : Bool) (content : Str) (env : Env) : RunOut :=
  let file := if fileExists then content else []
  let ids := if fileExists ∧ env.scanOk then scanIds content else []
  restoreQuotas env ⟨file, ids⟩

/-! ## Sequences of operations

For the tag-reuse invariant the three mutating entry points are replayed as a
sequence of requests, each carrying the outcome of its own external calls. -/

/-- One request against the quota manager, together with the outcome of the
external operations it will perform. -/
inductive Op where
  | add (dir bhard : Str) (appendOk assocOk removeOk : Bool)
  | remove (block : Str) (id : Nat) (removeOk : Bool)
  | restoreOp (dirExists : Str → Bool) (limitOk : Nat → Str → Str → Bool) (removeOk : Bool)

/-- The environment an `Op` runs under; fields the operation never consults
are filled with successes. -/
def Op.env : Op → Env
  | .add _ _ ap as rm => ⟨true, true, ap, as, rm, fun _ => true, fun _ _ _ => true⟩
  | .remove _ _ rm => ⟨true, true, true, true, rm, fun _ => true, fun _ _ _ => true⟩
  | .restoreOp dx lk rm => ⟨true, true, true, true, rm, dx, lk⟩

/-- State transition of one request. -/
def step (s : QState) : Op → QState
  | op@(.add d b _ _ _) => (AddProject op.env s d b).2.1
  | op@(.remove blk id _) => (RemoveProject op.env s blk id).state
  | op@(.restoreOp _ _ _) => (restoreQuotas op.env s).state

/-- Replay a request sequence. -/
def run (s : QState) : List Op → QState
  | [] => s
  | op :: ops => run (step s op) ops

/-- For an `AddProject` request: the tag about to be handed out is carried
by no record of the current projects file.  Trivially true for the other
requests. -/
def addFresh (s : QState) : Op → Bool
  | .add _ _ _ _ _ => !((parsedTags s.file).contains (generateId s.ids))
  | .remove _ _ _ => true
  | .restoreOp _ _ _ => true

/-- `true` when, along the whole run, every `AddProject` request hands out a
tag that no record of the current projects file carries. -/
def reuseFreeB (s : QState) : List Op → Bool
  | [] => true
  | op :: ops => addFresh s op && reuseFreeB (step s op) ops

/-! ## Prefix and substring-removal lemmas -/

theorem isPre_iff (p : Str) : ∀ l, isPre p l = true ↔ p <+: l := by
  induction p with
  | nil => intro l; simp [isPre]
  | cons a as ih =>
    intro l
    cases l with
    | nil => simp [isPre]
    | cons b bs =>
      rw [List.cons_prefix_cons]
      simp only [isPre, Bool.and_eq_true, decide_eq_true_eq, ih]

theorem isPre_append_self (p : Str) : ∀ t, isPre p (p ++ t) = true := by
  induction p with
  | nil => intro t; simp [isPre]
  | cons a as ih => intro t; simp [isPre, ih]

theorem isPre_refl (p : Str) : isPre p p = true := by
  simpa using isPre_append_self p []

theorem removeFirst_self (pat : Str) : removeFirst pat pat = [] := by
  cases pat with
  | nil => rfl
  | cons c cs =>
    simp [removeFirst, isPre_refl, List.drop_length]

/-- No occurrence of `pat` in `f ++ pat` starts strictly inside `f`: the
appended copy is the first occurrence. -/
def noEarlyOcc (pat f : Str) : Prop :=
  ∀ i, i < f.length → isPre pat (f.drop i ++ pat) = false

theorem removeFirst_append_self (pat : Str) :
    ∀ f, noEarlyOcc pat f → removeFirst pat (f ++ pat) = f := by
  intro f
  induction f with
  | nil => intro _; simp [removeFirst_self pat]
  | cons c f' ih =>
    intro h
    have h0 := h 0 (by simp)
    simp only [List.drop_zero, List.cons_append] at h0
    have hstep : removeFirst pat ((c :: f') ++ pat) = c :: removeFirst pat (f' ++ pat) := by
      rw [List.cons_append, removeFirst, h0]
      simp
    rw [hstep, ih fun i hi => h (i + 1) (Nat.succ_lt_succ hi)]

/-! ## Allocator lemmas -/

/-- The tag space `1..65535` is not exhausted. -/
def freeTag (ids : List Nat) : Prop := ∃ n, 1 ≤ n ∧ n ≤ 65535 ∧ n ∉ ids

theorem genGo_not_mem (ids : List Nat) :
    ∀ fuel cur, (∃ n, cur ≤ n ∧ n < cur + fuel ∧ n ∉ ids) → genGo ids fuel cur ∉ ids := by
  intro fuel
  induction fuel with
  | zero => rintro cur ⟨n, h1, h2, _⟩; omega
  | succ fuel ih =>
    rintro cur ⟨n, h1, h2, h3⟩
    by_cases hc : cur ∈ ids
    · simp only [genGo, hc, if_true]
      refine ih (cur + 1) ⟨n, ?_, by omega, h3⟩
      rcases Nat.eq_or_lt_of_le h1 with rfl | hlt
      · exact absurd hc h3
      · omega
    · rw [genGo, if_neg hc]; exact hc

theorem generateId_not_mem {ids : List Nat} (h : freeTag ids) : generateId ids ∉ ids := by
  rcases h with ⟨n, h1, h2, h3⟩
  exact genGo_not_mem ids 65535 1 ⟨n, h1, by omega, h3⟩

theorem genGo_le (ids : List Nat) :
    ∀ fuel cur, genGo ids fuel cur = 0 ∨ genGo ids fuel cur < cur + fuel := by
  intro fuel
  induction fuel with
  | zero => intro cur; left; rfl
  | succ fuel ih =>
    intro cur
    by_cases hc : cur ∈ ids
    · simp only [genGo, hc, if_true]
      rcases ih (cur + 1) with h | h
      · left; exact h
      · right; omega
    · simp only [genGo, hc, if_false]; right; omega

theorem generateId_le (ids : List Nat) : generateId ids ≤ 65535 := by
  rcases genGo_le ids 65535 1 with h | h <;> unfold generateId <;> omega

theorem deleteId_not_mem (ids : List Nat) (id : Nat) : id ∉ deleteId ids id := by
  intro h
  rcases List.mem_filter.mp h with ⟨_, h2⟩
  simp at h2

theorem deleteId_of_not_mem {ids : List Nat} {id : Nat} (h : id ∉ ids) :
    deleteId ids id = ids := by
  apply List.filter_eq_self.mpr
  intro a ha
  simp only [decide_eq_true_eq]
  rintro rfl
  exact h ha

theorem deleteId_insertId {ids : List Nat} {g : Nat} (h : g ∉ ids) :
    deleteId (insertId ids g) g = ids := by
  have h1 : insertId ids g = g :: ids := if_neg h
  have h2 : deleteId (g :: ids) g = deleteId ids g := by
    simp [deleteId, List.filter_cons]
  rw [h1, h2, deleteId_of_not_mem h]

/-! ## Claim theorems: AddProject and RemoveProject -/

/-- C1: `AddProject` is all-or-nothing: when the append to the projects file
fails, the freshly allocated tag is released, an error is returned and the
state (allocated-tag set and file contents) equals its pre-call state; when
the append succeeds but the `xfs_quota project` association fails, an error
is returned, the tag is released and the just-appended block is removed, so
the state again equals its pre-call state.  The hypotheses say the tag space
is not exhausted, that the rollback's file removal itself succeeds, and that
the fresh block's text does not already occur in the file (so removing its
first occurrence removes exactly the appended copy). -/
theorem addProject_all_or_nothing (env : Env) (s : QState) (dir bhard : Str)
    (hfree : freeTag s.ids) (hrm : env.removeOk = true)
    (hocc : noEarlyOcc (mkBlock (natToChars (generateId s.ids)) dir bhard) s.file) :
    (env.appendOk = false →
      (AddProject env s dir bhard).1 = .error .appendFailed ∧
      (AddProject env s dir bhard).2.1 = s)
    ∧ (env.appendOk = true → env.assocOk = false →
      (AddProject env s dir bhard).1 = .error .xfsQuotaFailed ∧
      (AddProject env s dir bhard).2.1 = s) := by
  have hg : generateId s.ids ∉ s.ids := generateId_not_mem hfree
  constructor
  · intro hap
    have hA : AddProject env s dir bhard =
        (.error .appendFailed,
         ⟨s.file, deleteId (insertId s.ids (generateId s.ids)) (generateId s.ids)⟩, []) := by
      simp [AddProject, hap]
    rw [hA]
    refine ⟨rfl, ?_⟩
    rw [deleteId_insertId hg]
  · intro hap has
    have hA : AddProject env s dir bhard =
        (.error .xfsQuotaFailed,
         ⟨removeFirst (mkBlock (natToChars (generateId s.ids)) dir bhard)
            (s.file ++ mkBlock (natToChars (generateId s.ids)) dir bhard),
          deleteId (insertId s.ids (generateId s.ids)) (generateId s.ids)⟩,
         [.assocCmd dir (generateId s.ids)]) := by
      simp [AddProject, hap, has, hrm]
    rw [hA]
    refine ⟨rfl, ?_⟩
    rw [deleteId_insertId hg, removeFirst_append_self _ _ hocc]

def envAppendFail : Env := ⟨true, true, false, true, true, fun _ => true, fun _ _ _ => true⟩

theorem addProject_all_or_nothing_witness :
    (AddProject envAppendFail ⟨[], []⟩ ['/', 'd'] ['5']).1 = .error .appendFailed ∧
    (AddProject envAppendFail ⟨[], []⟩ ['/', 'd'] ['5']).2.1 = ⟨[], []⟩ :=
  (addProject_all_or_nothing envAppendFail ⟨[], []⟩ ['/', 'd'] ['5']
    ⟨1, by decide⟩ rfl (by intro i hi; simp at hi)).1 rfl

/-- C2: a successful `AddProject` returns as token exactly the block text it
appended, and a subsequent `RemoveProject` with that token leaves the
projects file byte-identical to its pre-call state.  The occurrence
hypothesis again says the appended block's text did not already occur in the
pre-call file. -/
theorem addProject_removeProject_roundtrip (env : Env) (s : QState) (dir bhard : Str)
    (hap : env.appendOk = true) (has : env.assocOk = true) (hrm : env.removeOk = true)
    (hocc : noEarlyOcc (mkBlock (natToChars (generateId s.ids)) dir bhard) s.file) :
    (AddProject env s dir bhard).1 =
      .ok (mkBlock (natToChars (generateId s.ids)) dir bhard, generateId s.ids)
    ∧ (AddProject env s dir bhard).2.1.file =
      s.file ++ mkBlock (natToChars (generateId s.ids)) dir bhard
    ∧ (RemoveProject env (AddProject env s dir bhard).2.1
        (mkBlock (natToChars (generateId s.ids)) dir bhard)
        (generateId s.ids)).state.file = s.file := by
  have hA : AddProject env s dir bhard =
      (.ok (mkBlock (natToChars (generateId s.ids)) dir bhard, generateId s.ids),
       ⟨s.file ++ mkBlock (natToChars (generateId s.ids)) dir bhard,
        insertId s.ids (generateId s.ids)⟩,
       [.assocCmd dir (generateId s.ids)]) := by
    simp [AddProject, hap, has]
  rw [hA]
  refine ⟨rfl, rfl, ?_⟩
  show (RemoveProject env _ _ _).state.file = s.file
  unfold RemoveProject
  rw [hrm]
  simp only [if_true]
  exact removeFirst_append_self _ _ hocc

def envAllOk : Env := ⟨true, true, true, true, true, fun _ => true, fun _ _ _ => true⟩

theorem addProject_removeProject_roundtrip_witness :
    (AddProject envAllOk ⟨[], []⟩ ['/', 'd'] ['5']).1 =
      .ok (mkBlock (natToChars (generateId ([] : List Nat))) ['/', 'd'] ['5'], generateId ([] : List Nat))
    ∧ (AddProject envAllOk ⟨[], []⟩ ['/', 'd'] ['5']).2.1.file =
      [] ++ mkBlock (natToChars (generateId ([] : List Nat))) ['/', 'd'] ['5']
    ∧ (RemoveProject envAllOk (AddProject envAllOk ⟨[], []⟩ ['/', 'd'] ['5']).2.1
        (mkBlock (natToChars (generateId ([] : List Nat))) ['/', 'd'] ['5'])
        (generateId ([] : List Nat))).state.file = ([] : Str) :=
  addProject_removeProject_roundtrip envAllOk ⟨[], []⟩ ['/', 'd'] ['5']
    rfl rfl rfl (by intro i hi; simp at hi)

/-- C10: `RemoveProject` deletes the tag from the allocator set before
attempting the file removal; when the file removal fails the error is
returned but the tag stays released and the file is unchanged — the
allocator state changes even on error, with no rollback. -/
theorem removeProject_not_atomic (env : Env) (s : QState) (blk : Str) (id : Nat)
    (hrm : env.removeOk = false) (hid : id ∈ s.ids) :
    (RemoveProject env s blk id).err = some .removeFailed
    ∧ (RemoveProject env s blk id).state.ids = deleteId s.ids id
    ∧ id ∉ (RemoveProject env s blk id).state.ids
    ∧ (RemoveProject env s blk id).state.ids ≠ s.ids
    ∧ (RemoveProject env s blk id).state.file = s.file := by
  have hA : RemoveProject env s blk id =
      ⟨some .removeFailed, ⟨s.file, deleteId s.ids id⟩, [.removeProj blk id]⟩ := by
    simp [RemoveProject, hrm]
  rw [hA]
  refine ⟨rfl, rfl, deleteId_not_mem s.ids id, ?_, rfl⟩
  intro h
  have h' : deleteId s.ids id = s.ids := h
  exact deleteId_not_mem s.ids id (by rw [h']; exact hid)

def envRemoveFail : Env := ⟨true, true, true, true, false, fun _ => true, fun _ _ _ => true⟩

theorem removeProject_not_atomic_witness :
    (RemoveProject envRemoveFail ⟨[], [7]⟩ ['x'] 7).err = some .removeFailed
    ∧ (RemoveProject envRemoveFail ⟨[], [7]⟩ ['x'] 7).state.ids = deleteId [7] 7
    ∧ 7 ∉ (RemoveProject envRemoveFail ⟨[], [7]⟩ ['x'] 7).state.ids
    ∧ (RemoveProject envRemoveFail ⟨[], [7]⟩ ['x'] 7).state.ids ≠ [7]
    ∧ (RemoveProject envRemoveFail ⟨[], [7]⟩ ['x'] 7).state.file = ([] : Str) :=
  removeProject_not_atomic envRemoveFail ⟨[], [7]⟩ ['x'] 7 rfl (by decide)

/-- C6: `SetQuota` on a tag that is not allocated fails immediately with the
state error and issues no external call; on an allocated tag it issues
exactly the external `xfs_quota limit` command. -/
theorem setQuota_checks_allocation (env : Env) (s : QState) (id : Nat) (dir bhard : Str) :
    (id ∉ s.ids → SetQuota env s id dir bhard = (some .notAdded, []))
    ∧ (id ∈ s.ids → (SetQuota env s id dir bhard).2 = [.xfsLimit id dir bhard]) := by
  constructor
  · intro h; simp [SetQuota, h]
  · intro h
    simp only [SetQuota, h, if_true]
    by_cases hl : env.limitOk id dir bhard = true <;> simp [hl]

theorem setQuota_checks_allocation_witness :
    (SetQuota envAllOk ⟨[], []⟩ 7 ['/', 'd'] ['5'] = (some .notAdded, []))
    ∧ (SetQuota envAllOk ⟨[], [3]⟩ 3 ['/', 'd'] ['5']).2 = [.xfsLimit 3 ['/', 'd'] ['5']] :=
  ⟨(setQuota_checks_allocation envAllOk ⟨[], []⟩ 7 ['/', 'd'] ['5']).1 (by decide),
   (setQuota_checks_allocation envAllOk ⟨[], [3]⟩ 3 ['/', 'd'] ['5']).2 (by decide)⟩

/-! ## Decimal round-trip lemmas -/

theorem natDigitsRev_eq_digits : ∀ fuel n, n ≤ fuel → natDigitsRev fuel n = Nat.digits 10 n := by
  intro fuel
  induction fuel with
  | zero =>
    intro n hn
    have : n = 0 := Nat.le_zero.mp hn
    subst this
    simp [natDigitsRev]
  | succ fuel ih =>
    intro n hn
    by_cases h : n = 0
    · subst h; simp [natDigitsRev]
    · have hpos : 0 < n := Nat.pos_of_ne_zero h
      have hdiv : n / 10 ≤ fuel := by
        have := Nat.div_lt_self hpos (by norm_num : 1 < 10)
        omega
      rw [natDigitsRev, if_neg h, ih (n / 10) hdiv, Nat.digits_def' (by norm_num : 1 < 10) hpos]

theorem natToChars_eq (n : Nat) :
    natToChars n = if n = 0 then ['0'] else ((Nat.digits 10 n).map Nat.digitChar).reverse := by
  unfold natToChars
  by_cases h : n = 0
  · simp [h]
  · rw [natDigitsRev_eq_digits n n (le_refl n)]

theorem charDigit_digitChar : ∀ d, d < 10 → charDigit (Nat.digitChar d) = d := by decide

theorem isDigit_digitChar : ∀ d, d < 10 → (Nat.digitChar d).isDigit = true := by decide

theorem foldl_rev_digits (L : List Nat) (hL : ∀ d ∈ L, d < 10) :
    ∀ a, ((L.map Nat.digitChar).reverse).foldl (fun x c => 10 * x + charDigit c) a
      = a * 10 ^ L.length + Nat.ofDigits 10 L := by
  induction L with
  | nil => intro a; simp [Nat.ofDigits_nil]
  | cons d L' ih =>
    intro a
    have hd : d < 10 := hL d (List.mem_cons_self d L')
    have hL' : ∀ x ∈ L', x < 10 := fun x hx => hL x (List.mem_cons_of_mem d hx)
    simp only [List.map_cons, List.reverse_cons, List.foldl_append, List.foldl_cons,
      List.foldl_nil, ih hL', charDigit_digitChar d hd, Nat.ofDigits_cons, List.length_cons]
    ring

theorem digitsToNat_natToChars (n : Nat) : digitsToNat (natToChars n) = n := by
  by_cases h : n = 0
  · subst h; decide
  · have hd : ∀ d ∈ Nat.digits 10 n, d < 10 :=
      fun d hdm => Nat.digits_lt_base (by norm_num) hdm
    rw [natToChars_eq]
    simp only [h, if_false, digitsToNat]
    rw [foldl_rev_digits _ hd 0]
    simp [Nat.ofDigits_digits]

theorem natToChars_ne_nil (n : Nat) : natToChars n ≠ [] := by
  by_cases h : n = 0
  · subst h; decide
  · rw [natToChars_eq]
    simp only [h, if_false]
    simp [Nat.digits_ne_nil_iff_ne_zero, h]

theorem natToChars_isDigit (n : Nat) : ∀ c ∈ natToChars n, c.isDigit = true := by
  by_cases h : n = 0
  · subst h; decide
  · rw [natToChars_eq]
    simp only [h, if_false]
    intro c hc
    rcases List.mem_map.mp (List.mem_reverse.mp hc) with ⟨d, hdm, rfl⟩
    exact isDigit_digitChar d (Nat.digits_lt_base (by norm_num) hdm)

theorem parseUint16Sat_natToChars {t : Nat} (h : t ≤ 65535) :
    parseUint16Sat (natToChars t) = t := by
  unfold parseUint16Sat
  rw [digitsToNat_natToChars]
  omega

theorem parseUint16Sat_big {ds : Str} (h : 65535 < digitsToNat ds) :
    parseUint16Sat ds = 65535 := by
  unfold parseUint16Sat
  omega

/-- C9: a record whose numeric tag field exceeds 16 bits is neither rejected
nor skipped by the restore loop: the `ParseUint` error is discarded and the
tag saturates to `65535`, so the record's stale-removal (respectively its
`SetQuota` call) proceeds with tag `65535` instead of the tag written in the
file. -/
theorem restore_tag_saturates (env : Env) (s : QState) (ds dir bhard : Str) (rest : List Rec)
    (hbig : 65535 < digitsToNat ds) :
    parseUint16Sat ds = 65535
    ∧ (env.dirExists dir = false →
        (restoreGo env s (⟨ds, dir, bhard⟩ :: rest)).events.head? =
          some (.removeProj (Rec.block ⟨ds, dir, bhard⟩) 65535))
    ∧ (env.dirExists dir = true →
        (restoreGo env s (⟨ds, dir, bhard⟩ :: rest)).events.head? =
          some (.setQuota 65535 dir bhard)) := by
  have hpid : parseUint16Sat ds = 65535 := parseUint16Sat_big hbig
  refine ⟨hpid, ?_, ?_⟩
  · intro hdx
    by_cases hrm : env.removeOk = true <;>
      simp [restoreGo, hdx, hpid, RemoveProject, hrm]
  · intro hdx
    simp only [restoreGo, hdx, if_true, hpid]
    rcases hsq : SetQuota env s 65535 dir bhard with ⟨e, evs⟩
    cases e <;> simp [hsq]

theorem restore_tag_saturates_witness :
    parseUint16Sat ['9', '9', '9', '9', '9'] = 65535
    ∧ (restoreGo envAllOk ⟨[], []⟩ [⟨['9', '9', '9', '9', '9'], ['/', 'd'], ['5']⟩]).events.head? =
        some (.setQuota 65535 ['/', 'd'] ['5']) :=
  ⟨(restore_tag_saturates envAllOk ⟨[], []⟩ ['9', '9', '9', '9', '9'] ['/', 'd'] ['5'] []
      (by decide)).1,
   (restore_tag_saturates envAllOk ⟨[], []⟩ ['9', '9', '9', '9', '9'] ['/', 'd'] ['5'] []
      (by decide)).2.2 rfl⟩

/-! ## Restore-loop lemmas -/

/-- The `SetQuota` calls recorded in an event trace, in order. -/
def sqCalls (evs : List Event) : List (Nat × Str × Str) :=
  evs.filterMap fun e => match e with | .setQuota t d b => some (t, d, b) | _ => none

theorem sqCalls_append (xs ys : List Event) : sqCalls (xs ++ ys) = sqCalls xs ++ sqCalls ys :=
  List.filterMap_append xs ys _

theorem setQuota_events_sqCalls (env : Env) (s : QState) (id : Nat) (dir bhard : Str) :
    sqCalls (SetQuota env s id dir bhard).2 = [] := by
  unfold SetQuota
  split_ifs <;> rfl

theorem setQuota_events_no_setQuota (env : Env) (s : QState) (id : Nat) (dir bhard : Str)
    (t : Nat) (d b : Str) : Event.setQuota t d b ∉ (SetQuota env s id dir bhard).2 := by
  unfold SetQuota
  split_ifs <;> simp

theorem removeProject_ids (env : Env) (s : QState) (blk : Str) (id : Nat) :
    (RemoveProject env s blk id).state.ids = deleteId s.ids id := by
  unfold RemoveProject
  split_ifs <;> rfl

theorem mem_deleteId {ids : List Nat} {id t : Nat} (h : t ∈ deleteId ids id) : t ∈ ids :=
  (List.mem_filter.mp h).1

/-- The restore loop never adds a tag to the allocator set. -/
theorem restoreGo_ids_subset (env : Env) :
    ∀ (rs : List Rec) (s : QState) (t : Nat),
      t ∈ (restoreGo env s rs).state.ids → t ∈ s.ids := by
  intro rs
  induction rs with
  | nil => intro s t h; exact h
  | cons r rs ih =>
    intro s t h
    by_cases hd : env.dirExists r.dir = true
    · rcases hSQ : SetQuota env s (parseUint16Sat r.tagStr) r.dir r.bhard with ⟨e1, evs⟩
      cases e1 with
      | none =>
        have hout : (restoreGo env s (r :: rs)).state = (restoreGo env s rs).state := by
          simp [restoreGo, hd, hSQ]
        rw [hout] at h
        exact ih s t h
      | some e =>
        have hout : (restoreGo env s (r :: rs)).state = s := by
          simp [restoreGo, hd, hSQ]
        rw [hout] at h
        exact h
    · have hd' : env.dirExists r.dir = false := by simpa using hd
      have hout : (restoreGo env s (r :: rs)).state =
          (restoreGo env (RemoveProject env s r.block (parseUint16Sat r.tagStr)).state rs).state := by
        simp [restoreGo, hd']
      rw [hout] at h
      have h2 := ih _ t h
      rw [removeProject_ids] at h2
      exact mem_deleteId h2

theorem restoreGo_stale (env : Env) (hrm : env.removeOk = true) :
    ∀ (rs : List Rec) (s : QState),
      (∀ t d b, Event.setQuota t d b ∈ (restoreGo env s rs).events → env.dirExists d = true)
      ∧ ((restoreGo env s rs).err = none →
          ∀ r ∈ rs, env.dirExists r.dir = false →
            Event.removeProj r.block (parseUint16Sat r.tagStr) ∈ (restoreGo env s rs).events
            ∧ parseUint16Sat r.tagStr ∉ (restoreGo env s rs).state.ids)
      ∧ (∀ e, (restoreGo env s rs).err = some e → ∃ r ∈ rs, env.dirExists r.dir = true) := by
  intro rs
  induction rs with
  | nil =>
    intro s
    refine ⟨?_, ?_, ?_⟩
    · intro t d b h; simp [restoreGo] at h
    · intro _ r hr; simp at hr
    · intro e h; simp [restoreGo] at h
  | cons r rs ih =>
    intro s
    by_cases hd : env.dirExists r.dir = true
    · rcases hSQ : SetQuota env s (parseUint16Sat r.tagStr) r.dir r.bhard with ⟨e1, evs⟩
      have hevs : evs = (SetQuota env s (parseUint16Sat r.tagStr) r.dir r.bhard).2 := by
        rw [hSQ]
      cases e1 with
      | some e =>
        have hout : restoreGo env s (r :: rs) =
            ⟨some (.restoreError r.dir e), s,
             .setQuota (parseUint16Sat r.tagStr) r.dir r.bhard :: evs⟩ := by
          simp [restoreGo, hd, hSQ]
        rw [hout]
        refine ⟨?_, ?_, ?_⟩
        · intro t d b h
          rcases List.mem_cons.mp h with h1 | h1
          · injection h1 with h2 h3 h4
            rw [h3]; exact hd
          · exact absurd h1 (hevs ▸ setQuota_events_no_setQuota env s _ r.dir r.bhard t d b)
        · intro hnone; simp at hnone
        · intro e' _; exact ⟨r, List.mem_cons_self r rs, hd⟩
      | none =>
        have hout : restoreGo env s (r :: rs) =
            ⟨(restoreGo env s rs).err, (restoreGo env s rs).state,
             .setQuota (parseUint16Sat r.tagStr) r.dir r.bhard
               :: evs ++ (restoreGo env s rs).events⟩ := by
          simp [restoreGo, hd, hSQ]
        rw [hout]
        refine ⟨?_, ?_, ?_⟩
        · intro t d b h
          rcases List.mem_cons.mp h with h1 | h1
          · injection h1 with h2 h3 h4
            rw [h3]; exact hd
          · rcases List.mem_append.mp h1 with h2 | h2
            · exact absurd h2 (hevs ▸ setQuota_events_no_setQuota env s _ r.dir r.bhard t d b)
            · exact (ih s).1 t d b h2
        · intro hnone r' hr' hdr'
          rcases List.mem_cons.mp hr' with rfl | hr2
          · rw [hd] at hdr'; cases hdr'
          · have := (ih s).2.1 hnone r' hr2 hdr'
            exact ⟨List.mem_cons_of_mem _ (List.mem_append_right _ this.1), this.2⟩
        · intro e h
          rcases (ih s).2.2 e h with ⟨r', hr', hdr'⟩
          exact ⟨r', List.mem_cons_of_mem r hr', hdr'⟩
    · have hd' : env.dirExists r.dir = false := by simpa using hd
      have hro : RemoveProject env s r.block (parseUint16Sat r.tagStr) =
          ⟨none, ⟨removeFirst r.block s.file, deleteId s.ids (parseUint16Sat r.tagStr)⟩,
           [.removeProj r.block (parseUint16Sat r.tagStr)]⟩ := by
        simp [RemoveProject, hrm]
      have hout : restoreGo env s (r :: rs) =
          ⟨(restoreGo env (RemoveProject env s r.block (parseUint16Sat r.tagStr)).state rs).err,
           (restoreGo env (RemoveProject env s r.block (parseUint16Sat r.tagStr)).state rs).state,
           (RemoveProject env s r.block (parseUint16Sat r.tagStr)).events
             ++ (restoreGo env (RemoveProject env s r.block (parseUint16Sat r.tagStr)).state rs).events⟩ := by
        simp [restoreGo, hd']
      set s1 := (RemoveProject env s r.block (parseUint16Sat r.tagStr)).state with hs1
      rw [hout]
      refine ⟨?_, ?_, ?_⟩
      · intro t d b h
        rcases List.mem_append.mp h with h1 | h1
        · rw [hro] at h1; simp at h1
        · exact (ih s1).1 t d b h1
      · intro hnone r' hr' hdr'
        rcases List.mem_cons.mp hr' with rfl | hr2
        · constructor
          · apply List.mem_append_left
            rw [hro]
            exact List.mem_singleton.mpr rfl
          · intro hmem
            have h2 := restoreGo_ids_subset env rs s1 _ hmem
            rw [hs1, removeProject_ids] at h2
            exact deleteId_not_mem _ _ h2
        · have := (ih s1).2.1 hnone r' hr2 hdr'
          exact ⟨List.mem_append_right _ this.1, this.2⟩
      · intro e h
        rcases (ih s1).2.2 e h with ⟨r', hr', hdr'⟩
        exact ⟨r', List.mem_cons_of_mem r hr', hdr'⟩

/-- C3: records whose directory no longer exists are handled without failing
the restore: every `SetQuota` call the restore issues targets an existing
directory (so a stale record never triggers the limit operation), a restore
that completes has, for every stale record, invoked `RemoveProject` with
exactly that record's block text and parsed tag and left the tag released,
and any restore failure is attributable to a record whose directory exists. -/
theorem restore_stale_records (env : Env) (s : QState)
    (hrm : env.removeOk = true) (hread : env.readOk = true) :
    (∀ t d b, Event.setQuota t d b ∈ (restoreQuotas env s).events → env.dirExists d = true)
    ∧ ((restoreQuotas env s).err = none →
        ∀ r ∈ parseRecords s.file, env.dirExists r.dir = false →
          Event.removeProj r.block (parseUint16Sat r.tagStr) ∈ (restoreQuotas env s).events
          ∧ parseUint16Sat r.tagStr ∉ (restoreQuotas env s).state.ids)
    ∧ (∀ e, (restoreQuotas env s).err = some e →
        ∃ r ∈ parseRecords s.file, env.dirExists r.dir = true) := by
  have h : restoreQuotas env s = restoreGo env s (parseRecords s.file) := by
    simp [restoreQuotas, hread]
  rw [h]
  exact restoreGo_stale env hrm (parseRecords s.file) s

def envNoDirs : Env := ⟨true, true, true, true, true, fun _ => false, fun _ _ _ => true⟩

def fileOneRec : Str := mkBlock ['7'] ['/', 'd'] ['5']

theorem restore_stale_records_witness :
    (restoreQuotas envNoDirs ⟨fileOneRec, [7]⟩).err = none
    ∧ Event.removeProj (Rec.block ⟨['7'], ['/', 'd'], ['5']⟩) 7 ∈
        (restoreQuotas envNoDirs ⟨fileOneRec, [7]⟩).events
    ∧ 7 ∉ (restoreQuotas envNoDirs ⟨fileOneRec, [7]⟩).state.ids := by
  have h := (restore_stale_records envNoDirs ⟨fileOneRec, [7]⟩ rfl rfl).2.1 (by decide)
    ⟨['7'], ['/', 'd'], ['5']⟩ (by decide) rfl
  exact ⟨by decide, by simpa [parseUint16Sat, digitsToNat, charDigit] using h.1,
    by simpa [parseUint16Sat, digitsToNat, charDigit] using h.2⟩

/-- The calling pattern of a record, as it appears in a `SetQuota` call. -/
def Rec.call (r : Rec) : Nat × Str × Str := (parseUint16Sat r.tagStr, r.dir, r.bhard)

theorem restoreGo_calls (env : Env) :
    ∀ (rs : List Rec) (s : QState),
      ((restoreGo env s rs).err = none →
        sqCalls (restoreGo env s rs).events
          = (rs.filter fun r => env.dirExists r.dir).map Rec.call)
      ∧ (∀ e, (restoreGo env s rs).err = some e →
        ∃ rs1 r rs2, rs = rs1 ++ r :: rs2 ∧ env.dirExists r.dir = true ∧
          sqCalls (restoreGo env s rs).events
            = (rs1.filter fun r => env.dirExists r.dir).map Rec.call ++ [r.call]) := by
  intro rs
  induction rs with
  | nil =>
    intro s
    refine ⟨fun _ => rfl, ?_⟩
    intro e h; simp [restoreGo] at h
  | cons r rs ih =>
    intro s
    by_cases hd : env.dirExists r.dir = true
    · rcases hSQ : SetQuota env s (parseUint16Sat r.tagStr) r.dir r.bhard with ⟨e1, evs⟩
      have hevs : sqCalls evs = [] := by
        have := setQuota_events_sqCalls env s (parseUint16Sat r.tagStr) r.dir r.bhard
        rw [hSQ] at this
        exact this
      cases e1 with
      | some e =>
        have hout : restoreGo env s (r :: rs) =
            ⟨some (.restoreError r.dir e), s,
             .setQuota (parseUint16Sat r.tagStr) r.dir r.bhard :: evs⟩ := by
          simp [restoreGo, hd, hSQ]
        rw [hout]
        refine ⟨?_, ?_⟩
        · intro hnone; simp at hnone
        · intro e' _
          refine ⟨[], r, rs, by simp, hd, ?_⟩
          show sqCalls (Event.setQuota (parseUint16Sat r.tagStr) r.dir r.bhard :: evs) = [r.call]
          have hcons : sqCalls (Event.setQuota (parseUint16Sat r.tagStr) r.dir r.bhard :: evs)
              = r.call :: sqCalls evs := by
            simp [sqCalls, List.filterMap_cons, Rec.call]
          rw [hcons, hevs]
      | none =>
        have hout : restoreGo env s (r :: rs) =
            ⟨(restoreGo env s rs).err, (restoreGo env s rs).state,
             .setQuota (parseUint16Sat r.tagStr) r.dir r.bhard
               :: evs ++ (restoreGo env s rs).events⟩ := by
          simp [restoreGo, hd, hSQ]
        rw [hout]
        have hsq2 : ∀ tail, sqCalls (Event.setQuota (parseUint16Sat r.tagStr) r.dir r.bhard
            :: evs ++ tail) = r.call :: sqCalls tail := by
          intro tail
          show sqCalls (Event.setQuota (parseUint16Sat r.tagStr) r.dir r.bhard
            :: (evs ++ tail)) = r.call :: sqCalls tail
          rw [show sqCalls (Event.setQuota (parseUint16Sat r.tagStr) r.dir r.bhard
              :: (evs ++ tail)) = r.call :: sqCalls (evs ++ tail) from rfl]
          rw [sqCalls_append, hevs, List.nil_append]
        refine ⟨?_, ?_⟩
        · intro hnone
          rw [hsq2, (ih s).1 hnone, List.filter_cons_of_pos (by simp [hd]), List.map_cons]
        · intro e h
          rcases (ih s).2 e h with ⟨rs1, r', rs2, hrs, hdr', hcalls⟩
          refine ⟨r :: rs1, r', rs2, by rw [hrs]; rfl, hdr', ?_⟩
          rw [hsq2, hcalls, List.filter_cons_of_pos (by simp [hd]), List.map_cons]
          rfl
    · have hd' : env.dirExists r.dir = false := by simpa using hd
      have hout : restoreGo env s (r :: rs) =
          ⟨(restoreGo env (RemoveProject env s r.block (parseUint16Sat r.tagStr)).state rs).err,
           (restoreGo env (RemoveProject env s r.block (parseUint16Sat r.tagStr)).state rs).state,
           (RemoveProject env s r.block (parseUint16Sat r.tagStr)).events
             ++ (restoreGo env (RemoveProject env s r.block (parseUint16Sat r.tagStr)).state rs).events⟩ := by
        simp [restoreGo, hd']
      set s1 := (RemoveProject env s r.block (parseUint16Sat r.tagStr)).state with hs1
      have hrosq : sqCalls (RemoveProject env s r.block (parseUint16Sat r.tagStr)).events = [] := by
        unfold RemoveProject
        split_ifs <;> rfl
      rw [hout]
      refine ⟨?_, ?_⟩
      · intro hnone
        rw [sqCalls_append, hrosq, List.nil_append, (ih s1).1 hnone,
          List.filter_cons_of_neg (by simp [hd'])]
      · intro e h
        rcases (ih s1).2 e h with ⟨rs1, r', rs2, hrs, hdr', hcalls⟩
        refine ⟨r :: rs1, r', rs2, by rw [hrs]; rfl, hdr', ?_⟩
        rw [sqCalls_append, hrosq, List.nil_append, hcalls,
          List.filter_cons_of_neg (by simp [hd'])]

/-- C4: for records whose directory exists the restore issues the limit
operation (`SetQuota`) exactly once per record, in file order, with the
record's own parsed tag, directory and bound: a restore that completes has
issued exactly the call list of the existing-directory records, and a failed
restore has issued exactly the calls of the existing-directory records up to
and including the failing one — nothing for any later record, so a failure
aborts the whole restore. -/
theorem restore_limit_calls (env : Env) (s : QState) (hread : env.readOk = true) :
    ((restoreQuotas env s).err = none →
      sqCalls (restoreQuotas env s).events
        = ((parseRecords s.file).filter fun r => env.dirExists r.dir).map Rec.call)
    ∧ (∀ e, (restoreQuotas env s).err = some e →
      ∃ rs1 r rs2, parseRecords s.file = rs1 ++ r :: rs2 ∧ env.dirExists r.dir = true ∧
        sqCalls (restoreQuotas env s).events
          = (rs1.filter fun r => env.dirExists r.dir).map Rec.call ++ [r.call]) := by
  have h : restoreQuotas env s = restoreGo env s (parseRecords s.file) := by
    simp [restoreQuotas, hread]
  rw [h]
  exact restoreGo_calls env (parseRecords s.file) s

theorem restore_limit_calls_witness :
    (restoreQuotas envAllOk ⟨fileOneRec, [7]⟩).err = none
    ∧ sqCalls (restoreQuotas envAllOk ⟨fileOneRec, [7]⟩).events
        = ((parseRecords fileOneRec).filter fun r => envAllOk.dirExists r.dir).map Rec.call :=
  ⟨by decide, (restore_limit_calls envAllOk ⟨fileOneRec, [7]⟩ rfl).1 (by decide)⟩

/-! ## Line-parser correctness -/

theorem takeWhile_append_of {p : Char → Bool} :
    ∀ (xs : Str) (y : Char) (ys : Str), (∀ c ∈ xs, p c = true) → p y = false →
      (xs ++ y :: ys).takeWhile p = xs := by
  intro xs
  induction xs with
  | nil => intro y ys _ hy; simp [List.takeWhile_cons, hy]
  | cons a as ih =>
    intro y ys hall hy
    have ha : p a = true := hall a (List.mem_cons_self a as)
    simp only [List.cons_append, List.takeWhile_cons, ha, if_true]
    rw [ih y ys (fun c hc => hall c (List.mem_cons_of_mem a hc)) hy]

theorem dropWhile_append_of {p : Char → Bool} :
    ∀ (xs : Str) (y : Char) (ys : Str), (∀ c ∈ xs, p c = true) → p y = false →
      (xs ++ y :: ys).dropWhile p = y :: ys := by
  intro xs
  induction xs with
  | nil => intro y ys _ hy; simp [List.dropWhile_cons, hy]
  | cons a as ih =>
    intro y ys hall hy
    have ha : p a = true := hall a (List.mem_cons_self a as)
    simp only [List.cons_append, List.dropWhile_cons, ha, if_true]
    exact ih y ys (fun c hc => hall c (List.mem_cons_of_mem a hc)) hy

theorem splitRevColon_skip :
    ∀ (ys : Str) (acc rest : Str), (∀ c ∈ ys, c ≠ ':') →
      splitRevColon acc (ys ++ rest) = splitRevColon (acc ++ ys) rest := by
  intro ys
  induction ys with
  | nil => intro acc rest _; simp
  | cons c ys' ih =>
    intro acc rest hall
    have hc : c ≠ ':' := hall c (List.mem_cons_self c ys')
    calc splitRevColon acc ((c :: ys') ++ rest)
        = splitRevColon (acc ++ [c]) (ys' ++ rest) := by
          rw [List.cons_append, splitRevColon, if_neg]
          rintro ⟨h1, -⟩
          exact hc h1
      _ = splitRevColon ((acc ++ [c]) ++ ys') rest :=
          ih (acc ++ [c]) rest (fun x hx => hall x (List.mem_cons_of_mem c hx))
      _ = splitRevColon (acc ++ (c :: ys')) rest := by
          rw [List.append_assoc, List.singleton_append]

theorem splitRevColon_hit (b d : Str) (hb : b ≠ []) (hd : d ≠ []) (hbc : ∀ c ∈ b, c ≠ ':') :
    splitRevColon [] (b.reverse ++ ':' :: d.reverse) = some (d, b) := by
  have hrev : ∀ c ∈ b.reverse, c ≠ ':' := fun c hc => hbc c (List.mem_reverse.mp hc)
  rw [splitRevColon_skip b.reverse [] (':' :: d.reverse) hrev, List.nil_append,
    splitRevColon, if_pos ⟨rfl, by simpa using hb, by simpa using hd⟩,
    List.reverse_reverse, List.reverse_reverse]

theorem parseLine_mkLine (ds d b : Str) (hds : ds ≠ []) (hdig : ∀ c ∈ ds, c.isDigit = true)
    (hd : d ≠ []) (hb : b ≠ []) (hbc : ∀ c ∈ b, c ≠ ':') :
    parseLine (mkLine ds d b) = some ⟨ds, d, b⟩ := by
  have hcolon : (':' : Char).isDigit = false := by decide
  have htake : (ds ++ ':' :: (d ++ ':' :: b)).takeWhile Char.isDigit = ds :=
    takeWhile_append_of ds ':' (d ++ ':' :: b) hdig hcolon
  have hdrop : (ds ++ ':' :: (d ++ ':' :: b)).dropWhile Char.isDigit = ':' :: (d ++ ':' :: b) :=
    dropWhile_append_of ds ':' (d ++ ':' :: b) hdig hcolon
  have hrev : (d ++ ':' :: b).reverse = b.reverse ++ ':' :: d.reverse := by
    simp
  unfold parseLine mkLine
  rw [htake, if_neg hds, hdrop]
  simp only [hrev, splitRevColon_hit b d hb hd hbc]

theorem splitNewline_append_of :
    ∀ (l : Str) (rest : Str), '\n' ∉ l →
      splitNewline (l ++ '\n' :: rest) = l :: splitNewline rest := by
  intro l
  induction l with
  | nil => intro rest _; simp [splitNewline]
  | cons c l' ih =>
    intro rest hnl
    have hc : c ≠ '\n' := fun h => hnl (h ▸ List.mem_cons_self c l')
    have hl' : '\n' ∉ l' := fun h => hnl (List.mem_cons_of_mem c h)
    rw [List.cons_append, splitNewline, if_neg hc, ih rest hl']

theorem splitNewline_mkBlockL (l : Str) (hnl : '\n' ∉ l) :
    splitNewline (mkBlockL l) = [[], l, []] := by
  show splitNewline ('\n' :: (l ++ ['\n'])) = [[], l, []]
  rw [splitNewline, if_pos rfl, splitNewline_append_of l [] hnl]
  rfl

theorem parseRecords_mkBlockL (l : Str) (hnl : '\n' ∉ l) :
    parseRecords (mkBlockL l) =
      match parseLine l with
      | some r => [r]
      | none => [] := by
  unfold parseRecords
  rw [splitNewline_mkBlockL l hnl]
  show scanLines true [l, []] = _
  rcases h : parseLine l with - | r <;> simp [scanLines, h]

/-- C7 counterexample: for the empty directory string (which contains no
newline) the serialized block `"\n7::5\n"` does not parse back at all — the
regexp's directory group `(.+)` cannot be empty — so the round trip does not
yield the original triple. -/
theorem block_roundtrip_cex :
    parseRecords (mkBlock (natToChars 7) [] (natToChars 5)) ≠
      [⟨natToChars 7, [], natToChars 5⟩] := by
  decide

/-- C7 (amended: the directory must additionally be non-empty and the
decimal tag must be in the 16-bit range): for every non-empty directory
string without newline characters, every decimal tag up to `65535` and every
decimal (digits-only, non-empty) limit, serializing the triple into a block
and parsing the block with the restore regexp yields exactly one record
carrying the original directory and limit, whose tag string parses back to
the original tag. -/
theorem block_roundtrip (t : Nat) (d b : Str) (ht : t ≤ 65535) (hd : d ≠ [])
    (hdn : '\n' ∉ d) (hb : b ≠ []) (hbdig : ∀ c ∈ b, c.isDigit = true) :
    parseRecords (mkBlock (natToChars t) d b) = [⟨natToChars t, d, b⟩]
    ∧ parseUint16Sat (natToChars t) = t := by
  have hds := natToChars_ne_nil t
  have hdig := natToChars_isDigit t
  have hbc : ∀ c ∈ b, c ≠ ':' := by
    intro c hc h
    have := hbdig c hc
    rw [h] at this
    exact absurd this (by decide)
  have hnl : '\n' ∉ mkLine (natToChars t) d b := by
    unfold mkLine
    intro hmem
    rcases List.mem_append.mp hmem with h1 | h1
    · have := hdig '\n' h1; exact absurd this (by decide)
    · rcases List.mem_cons.mp h1 with h2 | h2
      · exact absurd h2.symm (by decide)
      · rcases List.mem_append.mp h2 with h3 | h3
        · exact hdn h3
        · rcases List.mem_cons.mp h3 with h4 | h4
          · exact absurd h4.symm (by decide)
          · have := hbdig '\n' h4; exact absurd this (by decide)
  constructor
  · unfold mkBlock
    rw [parseRecords_mkBlockL _ hnl, parseLine_mkLine (natToChars t) d b hds hdig hd hb hbc]
  · exact parseUint16Sat_natToChars ht

theorem block_roundtrip_witness :
    parseRecords (mkBlock (natToChars 7) ['/', 'd'] ['5']) = [⟨natToChars 7, ['/', 'd'], ['5']⟩]
    ∧ parseUint16Sat (natToChars 7) = 7 :=
  block_roundtrip 7 ['/', 'd'] ['5'] (by decide) (by decide) (by decide) (by decide) (by decide)

/-! ## Parser inversion and the startup scan -/

theorem splitRevColon_sound :
    ∀ (rl acc : Str) (X Y : Str), splitRevColon acc rl = some (X, Y) →
      rl.reverse ++ acc.reverse = X ++ ':' :: Y ∧ X ≠ [] ∧ Y ≠ [] := by
  intro rl
  induction rl with
  | nil => intro acc X Y h; cases h
  | cons c rest ih =>
    intro acc X Y h
    rw [splitRevColon] at h
    split_ifs at h with hcond
    · rcases hcond with ⟨rfl, hacc, hrest⟩
      injection h with h1
      injection h1 with hX hY
      subst hX; subst hY
      refine ⟨?_, by simpa using hrest, by simpa using hacc⟩
      simp
    · rcases ih (acc ++ [c]) X Y h with ⟨heq, hX, hY⟩
      refine ⟨?_, hX, hY⟩
      rw [← heq]
      simp

theorem mem_takeWhile_digit {l : Str} {c : Char} (h : c ∈ l.takeWhile Char.isDigit) :
    c.isDigit = true :=
  List.mem_takeWhile_imp h

/-- Inversion of the line parser: a parsed record's fields reassemble the
line exactly, its tag string is the non-empty maximal digit run, and the
directory and limit are non-empty. -/
theorem parseLine_inv {l : Str} {r : Rec} (h : parseLine l = some r) :
    l = mkLine r.tagStr r.dir r.bhard
    ∧ r.tagStr = l.takeWhile Char.isDigit
    ∧ r.tagStr ≠ [] ∧ (∀ c ∈ r.tagStr, c.isDigit = true)
    ∧ r.dir ≠ [] ∧ r.bhard ≠ [] := by
  unfold parseLine at h
  split at h
  · cases h
  · rename_i hts
    split at h
    · rename_i rest heq
      split at h
      · rename_i d b hsp
        injection h with h1
        rcases splitRevColon_sound rest.reverse [] d b hsp with ⟨heq2, hX, hY⟩
        simp only [List.reverse_reverse, List.reverse_nil, List.append_nil] at heq2
        have hl : l = l.takeWhile Char.isDigit ++ ':' :: rest := by
          rw [← heq, List.takeWhile_append_dropWhile]
        subst h1
        refine ⟨?_, rfl, hts, fun c hc => mem_takeWhile_digit hc, hX, hY⟩
        conv_lhs => rw [hl, heq2]
        rfl
      · cases h
    · cases h

/-- Every record the file parser returns comes from one of the file's
newline-separated segments. -/
theorem scanLines_mem :
    ∀ (lines : List Str) (b : Bool) (r : Rec), r ∈ scanLines b lines →
      ∃ l ∈ lines, parseLine l = some r := by
  intro lines
  induction lines with
  | nil => intro b r h; simp [scanLines] at h
  | cons l rest ih =>
    intro b r h
    rcases rest with - | ⟨next, rest'⟩
    · simp [scanLines] at h
    · by_cases hb : b = true
      · subst hb
        rcases hpl : parseLine l with - | r'
        · rw [scanLines, if_pos rfl, hpl] at h
          rcases ih true r h with ⟨l', hl', hpl'⟩
          exact ⟨l', List.mem_cons_of_mem l hl', hpl'⟩
        · rw [scanLines, if_pos rfl, hpl] at h
          rcases List.mem_cons.mp h with rfl | h2
          · exact ⟨l, List.mem_cons_self l _, hpl⟩
          · rcases ih false r h2 with ⟨l', hl', hpl'⟩
            exact ⟨l', List.mem_cons_of_mem l hl', hpl'⟩
      · have hb' : b = false := by simpa using hb
        subst hb'
        rw [scanLines] at h
        simp only [Bool.false_eq_true, if_false] at h
        rcases ih true r h with ⟨l', hl', hpl'⟩
        exact ⟨l', List.mem_cons_of_mem l hl', hpl'⟩

/-- A record line whose directory begins with a slash matches the startup
scan pattern `^([0-9]+):/.+$`, and the scan recovers exactly the record's
parsed tag. -/
theorem scanLine_mkLine_slash (ds d' b : Str) (hds : ds ≠ [])
    (hdig : ∀ c ∈ ds, c.isDigit = true) :
    scanLine (mkLine ds ('/' :: d') b) = some (parseUint16Sat ds) := by
  have hcolon : (':' : Char).isDigit = false := by decide
  have htake : (ds ++ ':' :: (('/' :: d') ++ ':' :: b)).takeWhile Char.isDigit = ds :=
    takeWhile_append_of ds ':' (('/' :: d') ++ ':' :: b) hdig hcolon
  have hdrop : (ds ++ ':' :: (('/' :: d') ++ ':' :: b)).dropWhile Char.isDigit
      = ':' :: (('/' :: d') ++ ':' :: b) :=
    dropWhile_append_of ds ':' (('/' :: d') ++ ':' :: b) hdig hcolon
  unfold scanLine mkLine
  rw [htake, if_neg hds, hdrop]
  rcases d' with - | ⟨c, d''⟩ <;> rfl

/-- C8 counterexample: the projects file `"\n5:x:8\n"` holds a record with
tag `5` whose directory `x` is not absolute; the restore regexp parses it,
but the startup-scan regexp `^([0-9]+):/.+$` does not match its line, so when
restore begins (the construction seeds the allocator with exactly the scan's
tags) tag `5` appears in the file yet is absent from the allocator set. -/
theorem scan_coverage_cex :
    5 ∈ parsedTags (mkBlock ['5'] ['x'] ['8'])
    ∧ 5 ∉ scanIds (mkBlock ['5'] ['x'] ['8']) := by
  decide

/-- C8 (amended: the guarantee covers the records the scan pattern can see —
those whose directory begins with `/` — not every record of the file):
construction seeds the allocator with the scan's tags before `restoreQuotas`
runs (so a load failure cannot unregister them), and when restore begins
every parsed record with an absolute directory already has its tag in the
allocator set; a record whose directory does not begin with `/` escapes the
scan and its tag may be absent. -/
theorem construction_scan_coverage (content : Str) (env : Env) (hscan : env.scanOk = true) :
    mkXfsQuotaer true content env = restoreQuotas env ⟨content, scanIds content⟩
    ∧ ∀ r ∈ parseRecords content, (∃ d', r.dir = '/' :: d') →
        parseUint16Sat r.tagStr ∈ scanIds content := by
  constructor
  · simp [mkXfsQuotaer, hscan]
  · rintro r hr ⟨d', hd'⟩
    rcases scanLines_mem (splitNewline content) false r hr with ⟨l, hl, hpl⟩
    rcases parseLine_inv hpl with ⟨hline, -, hds, hdig, -, -⟩
    have hscanl : scanLine l = some (parseUint16Sat r.tagStr) := by
      rw [hline, hd']
      exact scanLine_mkLine_slash r.tagStr d' r.bhard hds hdig
    exact List.mem_filterMap.mpr ⟨l, hl, hscanl⟩

theorem construction_scan_coverage_witness :
    mkXfsQuotaer true fileOneRec envAllOk = restoreQuotas envAllOk ⟨fileOneRec, scanIds fileOneRec⟩
    ∧ 7 ∈ scanIds fileOneRec :=
  ⟨(construction_scan_coverage fileOneRec envAllOk rfl).1,
   by
    have h := (construction_scan_coverage fileOneRec envAllOk rfl).2
      ⟨['7'], ['/', 'd'], ['5']⟩ (by decide) ⟨['d'], rfl⟩
    simpa [parseUint16Sat, digitsToNat, charDigit] using h⟩

/-! ## Well-formed projects files

A well-formed projects file is a concatenation of blocks, each a non-empty
newline-free line framed by one leading and one trailing newline — the shape
every `AddProject` append produces.  On such files the content-addressed
substring removal behaves like deleting one line from the line list. -/

/-- Concatenate a list of lines into a file of framed blocks. -/
def flattenBlocks : List Str → Str
  | [] => []
  | l :: ls => mkBlockL l ++ flattenBlocks ls

/-- The lines are non-empty and newline-free. -/
def LinesOK (ls : List Str) : Prop := ∀ l ∈ ls, l ≠ [] ∧ '\n' ∉ l

/-- Delete the first occurrence of a line. -/
def eraseLine (x : Str) : List Str → List Str
  | [] => []
  | l :: ls => if l = x then ls else l :: eraseLine x ls

/-- The segments of a flattened block list: each line followed by the empty
segment between its trailing newline and the next block's leading one. -/
def interleave : List Str → List Str
  | [] => []
  | l :: ls => l :: [] :: interleave ls

theorem flattenBlocks_append (ls1 ls2 : List Str) :
    flattenBlocks (ls1 ++ ls2) = flattenBlocks ls1 ++ flattenBlocks ls2 := by
  induction ls1 with
  | nil => rfl
  | cons l ls ih => simp [flattenBlocks, ih]

theorem flattenBlocks_cons_eq (l : Str) (ls : List Str) :
    flattenBlocks (l :: ls) = '\n' :: (l ++ '\n' :: flattenBlocks ls) := by
  simp [flattenBlocks, mkBlockL]

theorem splitNewline_flattenBlocks (ls : List Str) (h : LinesOK ls) :
    splitNewline (flattenBlocks ls) = [] :: interleave ls := by
  induction ls with
  | nil => rfl
  | cons l ls ih =>
    have hl : '\n' ∉ l := (h l (List.mem_cons_self l ls)).2
    have hls : LinesOK ls := fun x hx => h x (List.mem_cons_of_mem l hx)
    rw [flattenBlocks_cons_eq, splitNewline, if_pos rfl,
      splitNewline_append_of l _ hl, ih hls]
    rfl

theorem parseLine_nil : parseLine [] = none := rfl

theorem scanLines_nil_cons (b : Bool) (rest : List Str) :
    scanLines b ([] :: rest) = scanLines true rest := by
  rcases rest with - | ⟨x, xs⟩
  · cases b <;> rfl
  · cases b
    · rfl
    · rw [scanLines, if_pos rfl, parseLine_nil]

theorem scanLines_interleave (ls : List Str) :
    scanLines true (interleave ls) = ls.filterMap parseLine := by
  induction ls with
  | nil => rfl
  | cons l ls ih =>
    show scanLines true (l :: [] :: interleave ls) = _
    rw [scanLines, if_pos rfl]
    rcases hpl : parseLine l with - | r
    · show scanLines true ([] :: interleave ls) = _
      rw [scanLines_nil_cons, ih]
      simp [List.filterMap_cons, hpl]
    · show r :: scanLines false ([] :: interleave ls) = _
      rw [scanLines_nil_cons, ih]
      simp [List.filterMap_cons, hpl]

theorem parseRecords_flattenBlocks (ls : List Str) (h : LinesOK ls) :
    parseRecords (flattenBlocks ls) = ls.filterMap parseLine := by
  unfold parseRecords
  rw [splitNewline_flattenBlocks ls h, scanLines_nil_cons, scanLines_interleave]

theorem prefix_line_unique :
    ∀ (l' l : Str) (A B : Str), '\n' ∉ l' → '\n' ∉ l →
      (l' ++ '\n' :: A) <+: (l ++ '\n' :: B) → l' = l := by
  intro l'
  induction l' with
  | nil =>
    intro l A B _ hl h
    rcases l with - | ⟨c, t⟩
    · rfl
    · rw [List.nil_append, List.cons_append, List.cons_prefix_cons] at h
      exact absurd (h.1.symm ▸ List.mem_cons_self c t) hl
  | cons a t' ih =>
    intro l A B hl' hl h
    rcases l with - | ⟨c, t⟩
    · rw [List.nil_append, List.cons_append, List.cons_prefix_cons] at h
      exact absurd (h.1 ▸ List.mem_cons_self a t') hl'
    · rw [List.cons_append, List.cons_append, List.cons_prefix_cons] at h
      have ht : t' = t :=
        ih t A B (fun hm => hl' (List.mem_cons_of_mem a hm))
          (fun hm => hl (List.mem_cons_of_mem c hm)) h.2
      rw [h.1, ht]

theorem drop_head_mem :
    ∀ (xs ys : Str) (i : Nat), i < xs.length →
      ∃ c rest, List.drop i (xs ++ ys) = c :: rest ∧ c ∈ xs := by
  intro xs
  induction xs with
  | nil => intro ys i h; simp at h
  | cons c xs' ih =>
    intro ys i h
    rcases i with - | i
    · exact ⟨c, xs' ++ ys, by simp, List.mem_cons_self c xs'⟩
    · rcases ih ys i (by simpa using h) with ⟨c', rest, heq, hmem⟩
      exact ⟨c', rest, by simpa using heq, List.mem_cons_of_mem c hmem⟩

theorem isPre_false_of_head_ne {a : Char} {t : Str} {b : Char} {t' : Str} (h : a ≠ b) :
    isPre (a :: t) (b :: t') = false := by
  simp [isPre, h]

theorem isPre_cons_same (a : Char) (t t' : Str) : isPre (a :: t) (a :: t') = isPre t t' := by
  simp [isPre]

/-- Inside a leading well-formed block (other than at its very start when
the lines coincide), a well-formed block pattern cannot begin. -/
theorem no_inner_occ (l' l : Str) (ls' : List Str) (hne : l' ≠ l)
    (hl'nn : l' ≠ []) (hl'nl : '\n' ∉ l') (hlnl : '\n' ∉ l) (hok : LinesOK ls') :
    ∀ i, i < (mkBlockL l).length →
      isPre (mkBlockL l') (List.drop i (mkBlockL l ++ flattenBlocks ls')) = false := by
  intro i hi
  have hlen : (mkBlockL l).length = l.length + 2 := by simp [mkBlockL]
  rcases i with - | i
  · rw [List.drop_zero]
    cases hb : isPre (mkBlockL l') (mkBlockL l ++ flattenBlocks ls')
    · rfl
    · exfalso
      have hpre' : mkBlockL l' <+: '\n' :: (l ++ '\n' :: flattenBlocks ls') := by
        have he : mkBlockL l ++ flattenBlocks ls' = '\n' :: (l ++ '\n' :: flattenBlocks ls') := by
          simp [mkBlockL]
        rw [← he]
        exact (isPre_iff _ _).mp hb
      rw [show mkBlockL l' = '\n' :: (l' ++ ['\n']) from by simp [mkBlockL],
        List.cons_prefix_cons] at hpre'
      have hpre2 : (l' ++ '\n' :: []) <+: (l ++ '\n' :: flattenBlocks ls') := by
        simpa using hpre'.2
      exact hne (prefix_line_unique l' l [] (flattenBlocks ls') hl'nl hlnl hpre2)
  · have hstep : mkBlockL l ++ flattenBlocks ls' = '\n' :: (l ++ '\n' :: flattenBlocks ls') := by
      simp [mkBlockL]
    rw [hstep, List.drop_succ_cons]
    by_cases hil : i < l.length
    · rcases drop_head_mem l ('\n' :: flattenBlocks ls') i hil with ⟨c, rest, heq, hmem⟩
      rw [heq]
      rcases l' with - | ⟨a, t⟩
      · exact absurd rfl hl'nn
      · have ha : ('\n' : Char) ≠ c := fun hca => hlnl (hca ▸ hmem)
        rw [show mkBlockL (a :: t) = '\n' :: ((a :: t) ++ ['\n']) from by simp [mkBlockL]]
        exact isPre_false_of_head_ne ha
    · have hie : i = l.length := by omega
      subst hie
      rw [List.drop_append_of_le_length (le_refl l.length), List.drop_length,
        List.nil_append]
      rw [show mkBlockL l' = '\n' :: (l' ++ ['\n']) from by simp [mkBlockL], isPre_cons_same]
      rcases ls' with - | ⟨m, ms⟩
      · rcases l' with - | ⟨a, t⟩
        · exact absurd rfl hl'nn
        · rfl
      · rw [flattenBlocks_cons_eq]
        rcases l' with - | ⟨a, t⟩
        · exact absurd rfl hl'nn
        · have ha : a ≠ '\n' := fun hca => hl'nl (hca ▸ List.mem_cons_self a t)
          rw [show ((a :: t) ++ ['\n'] : Str) = a :: (t ++ ['\n']) from rfl]
          exact isPre_false_of_head_ne ha

theorem removeFirst_chunk (pat : Str) :
    ∀ (pre xs : Str), (∀ i, i < pre.length → isPre pat (List.drop i (pre ++ xs)) = false) →
      removeFirst pat (pre ++ xs) = pre ++ removeFirst pat xs := by
  intro pre
  induction pre with
  | nil => intro xs _; rfl
  | cons c pre' ih =>
    intro xs h
    have h0 := h 0 (by simp)
    rw [List.drop_zero, List.cons_append] at h0
    rw [List.cons_append, removeFirst, h0]
    simp only [Bool.false_eq_true, if_false, List.cons_append]
    rw [ih xs fun i hi => by
      have := h (i + 1) (by simpa using Nat.succ_lt_succ hi)
      rwa [List.cons_append, List.drop_succ_cons] at this]

theorem removeFirst_append_left (pat X : Str) (h : pat ≠ []) :
    removeFirst pat (pat ++ X) = X := by
  rcases pat with - | ⟨c, t⟩
  · exact absurd rfl h
  · rw [List.cons_append, removeFirst]
    have hp : isPre (c :: t) (c :: (t ++ X)) = true := by
      rw [isPre_cons_same]
      exact isPre_append_self t X
    rw [hp]
    simp [List.drop_left]

theorem mkBlockL_ne_nil (l : Str) : mkBlockL l ≠ [] := by
  simp [mkBlockL]

theorem removeFirst_flattenBlocks (l' : Str) (hl'nn : l' ≠ []) (hl'nl : '\n' ∉ l') :
    ∀ ls, LinesOK ls →
      removeFirst (mkBlockL l') (flattenBlocks ls) = flattenBlocks (eraseLine l' ls) := by
  intro ls
  induction ls with
  | nil => intro _; rfl
  | cons l ls' ih =>
    intro hok
    have hl := hok l (List.mem_cons_self l ls')
    have hok' : LinesOK ls' := fun x hx => hok x (List.mem_cons_of_mem l hx)
    by_cases he : l = l'
    · subst he
      show removeFirst (mkBlockL l) (mkBlockL l ++ flattenBlocks ls') = _
      rw [removeFirst_append_left _ _ (mkBlockL_ne_nil l)]
      show _ = flattenBlocks (if l = l then ls' else l :: eraseLine l ls')
      rw [if_pos rfl]
    · show removeFirst (mkBlockL l') (mkBlockL l ++ flattenBlocks ls') = _
      rw [removeFirst_chunk (mkBlockL l') (mkBlockL l) (flattenBlocks ls')
        (no_inner_occ l' l ls' (fun h => he h.symm) hl'nn hl'nl hl.2 hok'), ih hok']
      show _ = flattenBlocks (if l = l' then ls' else l :: eraseLine l' ls')
      rw [if_neg he]
      rfl

theorem drop_append_shift : ∀ (xs ys : Str) (i : Nat),
    List.drop (xs.length + i) (xs ++ ys) = List.drop i ys := by
  intro xs
  induction xs with
  | nil => intro ys i; simp
  | cons c xs' ih =>
    intro ys i
    rw [List.cons_append, List.length_cons]
    rw [show xs'.length + 1 + i = (xs'.length + i) + 1 from by omega, List.drop_succ_cons]
    exact ih ys i

theorem occursB_iff (pat : Str) : ∀ f, occursB pat f = true ↔ ∃ i, isPre pat (f.drop i) = true := by
  intro f
  induction f with
  | nil =>
    constructor
    · intro h; exact ⟨0, h⟩
    · rintro ⟨i, h⟩
      rwa [List.drop_nil] at h
  | cons c rest ih =>
    rw [occursB, Bool.or_eq_true, ih]
    constructor
    · rintro (h | ⟨i, h⟩)
      · exact ⟨0, h⟩
      · exact ⟨i + 1, by rwa [List.drop_succ_cons]⟩
    · rintro ⟨i, h⟩
      rcases i with - | i
      · exact Or.inl h
      · exact Or.inr ⟨i, by rwa [List.drop_succ_cons] at h⟩

theorem occursB_flattenBlocks (l' : Str) (hl'nn : l' ≠ []) (hl'nl : '\n' ∉ l') :
    ∀ ls, LinesOK ls →
      (occursB (mkBlockL l') (flattenBlocks ls) = true ↔ l' ∈ ls) := by
  intro ls
  induction ls with
  | nil =>
    intro _
    rw [occursB_iff]
    constructor
    · rintro ⟨i, h⟩
      rw [show flattenBlocks [] = ([] : Str) from rfl, List.drop_nil] at h
      rcases l' with - | ⟨a, t⟩
      · exact absurd rfl hl'nn
      · rw [show mkBlockL (a :: t) = '\n' :: ((a :: t) ++ ['\n']) from by simp [mkBlockL]] at h
        cases h
    · intro h; simp at h
  | cons l ls' ih =>
    intro hok
    have hl := hok l (List.mem_cons_self l ls')
    have hok' : LinesOK ls' := fun x hx => hok x (List.mem_cons_of_mem l hx)
    rw [occursB_iff]
    constructor
    · rintro ⟨i, h⟩
      by_cases he : l' = l
      · rw [he]; exact List.mem_cons_self l ls'
      · rcases Nat.lt_or_ge i (mkBlockL l).length with hi | hi
        · have := no_inner_occ l' l ls' he hl'nn hl'nl hl.2 hok' i hi
          rw [show flattenBlocks (l :: ls') = mkBlockL l ++ flattenBlocks ls' from rfl] at h
          rw [this] at h
          cases h
        · have hdec : i = (mkBlockL l).length + (i - (mkBlockL l).length) := by omega
          rw [show flattenBlocks (l :: ls') = mkBlockL l ++ flattenBlocks ls' from rfl,
            hdec, drop_append_shift] at h
          exact List.mem_cons_of_mem l ((ih hok').mp ((occursB_iff _ _).mpr ⟨_, h⟩))
    · intro hmem
      rcases List.mem_cons.mp hmem with rfl | hmem'
      · refine ⟨0, ?_⟩
        rw [List.drop_zero, show flattenBlocks (l' :: ls') = mkBlockL l' ++ flattenBlocks ls'
          from rfl]
        exact isPre_append_self _ _
      · rcases (occursB_iff _ _).mp ((ih hok').mpr hmem') with ⟨i, h⟩
        refine ⟨(mkBlockL l).length + i, ?_⟩
        rw [show flattenBlocks (l :: ls') = mkBlockL l ++ flattenBlocks ls' from rfl,
          drop_append_shift]
        exact h

theorem eraseLine_not_mem {x : Str} : ∀ {ls : List Str}, x ∉ ls → eraseLine x ls = ls := by
  intro ls
  induction ls with
  | nil => intro _; rfl
  | cons l ls' ih =>
    intro h
    have hne : ¬(l = x) := fun he => h (by rw [← he]; exact List.mem_cons_self l ls')
    rw [eraseLine, if_neg hne, ih fun hm => h (List.mem_cons_of_mem l hm)]

theorem eraseLine_decomp {x : Str} : ∀ {ls : List Str}, x ∈ ls →
    ∃ ls1 ls2, ls = ls1 ++ x :: ls2 ∧ x ∉ ls1 ∧ eraseLine x ls = ls1 ++ ls2 := by
  intro ls
  induction ls with
  | nil => intro h; simp at h
  | cons l ls' ih =>
    intro h
    by_cases he : l = x
    · subst he
      exact ⟨[], ls', rfl, by simp, by rw [eraseLine, if_pos rfl]; rfl⟩
    · rcases ih (List.mem_cons.mp h |>.resolve_left fun hx => he hx.symm)
        with ⟨ls1, ls2, hdec, hnm, herase⟩
      refine ⟨l :: ls1, ls2, by rw [hdec]; rfl, ?_, ?_⟩
      · intro hm
        rcases List.mem_cons.mp hm with hm1 | hm1
        · exact he hm1.symm
        · exact hnm hm1
      · rw [eraseLine, if_neg he, herase]
        rfl

theorem eraseLine_subset {x y : Str} : ∀ {ls : List Str}, y ∈ eraseLine x ls → y ∈ ls := by
  intro ls
  induction ls with
  | nil => intro h; exact h
  | cons l ls' ih =>
    intro h
    rw [eraseLine] at h
    split_ifs at h
    · exact List.mem_cons_of_mem l h
    · rcases List.mem_cons.mp h with rfl | h2
      · exact List.mem_cons_self y ls'
      · exact List.mem_cons_of_mem l (ih h2)

theorem mem_eraseLine_of_ne {x y : Str} (hne : y ≠ x) :
    ∀ {ls : List Str}, y ∈ ls → y ∈ eraseLine x ls := by
  intro ls
  induction ls with
  | nil => intro h; exact h
  | cons l ls' ih =>
    intro h
    rw [eraseLine]
    split_ifs with he
    · rcases List.mem_cons.mp h with rfl | h2
      · exact absurd he hne
      · exact h2
    · rcases List.mem_cons.mp h with rfl | h2
      · exact List.mem_cons_self y _
      · exact List.mem_cons_of_mem l (ih h2)

theorem filterMap_eraseLine_none {x : Str} (hx : parseLine x = none) :
    ∀ (ls : List Str), (eraseLine x ls).filterMap parseLine = ls.filterMap parseLine := by
  intro ls
  induction ls with
  | nil => rfl
  | cons l ls' ih =>
    rw [eraseLine]
    split_ifs with he
    · subst he
      simp [List.filterMap_cons, hx]
    · simp only [List.filterMap_cons]
      rcases parseLine l with - | r <;> rw [ih]

/-! ## The state invariant behind tag non-reuse -/

/-- The parsed tags of a line list. -/
def tagsL (ls : List Str) : List Nat :=
  (ls.filterMap parseLine).map fun r => parseUint16Sat r.tagStr

/-- Well-formed quota state: the projects file is a concatenation of framed
blocks, every tag parsed from it is allocated, and no tag occurs in two
records. -/
def Inv (s : QState) : Prop :=
  ∃ ls, LinesOK ls ∧ s.file = flattenBlocks ls
    ∧ (∀ t ∈ tagsL ls, t ∈ s.ids) ∧ (tagsL ls).Nodup

/-- Per-request side conditions of the amended C5: file operations succeed,
`AddProject` arguments are newline-free and the tag space is not exhausted,
and `RemoveProject` receives a token of the block shape `AddProject` returns
for its tag, the token's block being present in the file unless the tag has
no record. -/
def OpGood (s : QState) : Op → Prop
  | .add d b _ _ rm => '\n' ∉ d ∧ '\n' ∉ b ∧ rm = true ∧ freeTag s.ids
  | .remove blk id rm => rm = true ∧ id ≤ 65535 ∧
      (∃ d b, d ≠ [] ∧ b ≠ [] ∧ '\n' ∉ d ∧ '\n' ∉ b ∧ blk = mkBlock (natToChars id) d b) ∧
      (occursB blk s.file = true ∨ id ∉ parsedTags s.file)
  | .restoreOp _ _ rm => rm = true

/-- All requests of a run satisfy their side conditions. -/
def OpsGood : QState → List Op → Prop
  | _, [] => True
  | s, op :: ops => OpGood s op ∧ OpsGood (step s op) ops

theorem tagsL_append (ls1 ls2 : List Str) : tagsL (ls1 ++ ls2) = tagsL ls1 ++ tagsL ls2 := by
  simp [tagsL, List.filterMap_append]

theorem tagsL_cons_some {l : Str} {r : Rec} (h : parseLine l = some r) (ls : List Str) :
    tagsL (l :: ls) = parseUint16Sat r.tagStr :: tagsL ls := by
  simp [tagsL, List.filterMap_cons, h]

theorem tagsL_cons_none {l : Str} (h : parseLine l = none) (ls : List Str) :
    tagsL (l :: ls) = tagsL ls := by
  simp [tagsL, List.filterMap_cons, h]

theorem parsedTags_flattenBlocks (ls : List Str) (h : LinesOK ls) :
    parsedTags (flattenBlocks ls) = tagsL ls := by
  unfold parsedTags tagsL
  rw [parseRecords_flattenBlocks ls h]

theorem mkLine_ne_nil (ds d b : Str) : mkLine ds d b ≠ [] := by
  intro h
  have := congrArg List.length h
  simp [mkLine] at this

theorem mkLine_no_newline {ds d b : Str} (hds : ∀ c ∈ ds, c.isDigit = true)
    (hd : '\n' ∉ d) (hb : '\n' ∉ b) : '\n' ∉ mkLine ds d b := by
  unfold mkLine
  intro hmem
  rcases List.mem_append.mp hmem with h1 | h1
  · have := hds '\n' h1; exact absurd this (by decide)
  · rcases List.mem_cons.mp h1 with h2 | h2
    · exact absurd h2.symm (by decide)
    · rcases List.mem_append.mp h2 with h3 | h3
      · exact hd h3
      · rcases List.mem_cons.mp h3 with h4 | h4
        · exact absurd h4.symm (by decide)
        · exact hb h4

theorem parseLine_mkLine_tagStr {ds d b : Str} {r : Rec}
    (hdig : ∀ c ∈ ds, c.isDigit = true) (h : parseLine (mkLine ds d b) = some r) :
    r.tagStr = ds := by
  rw [(parseLine_inv h).2.1]
  show List.takeWhile Char.isDigit (ds ++ ':' :: (d ++ ':' :: b)) = ds
  exact takeWhile_append_of ds ':' (d ++ ':' :: b) hdig (by decide)

theorem splitRevColon_acc_some (dr : Str) (hdr : dr ≠ []) :
    ∀ (br acc : Str), acc ≠ [] → ∃ pq, splitRevColon acc (br ++ ':' :: dr) = some pq := by
  intro br
  induction br with
  | nil =>
    intro acc hacc
    exact ⟨_, by rw [List.nil_append, splitRevColon, if_pos ⟨rfl, hacc, hdr⟩]⟩
  | cons c br' ih =>
    intro acc hacc
    rw [List.cons_append, splitRevColon]
    split_ifs
    · exact ⟨_, rfl⟩
    · exact ih (acc ++ [c]) (by simp)

theorem parseLine_mkLine_some (ds d b : Str) (hds : ds ≠ [])
    (hdig : ∀ c ∈ ds, c.isDigit = true) (hd : d ≠ []) (hb : b ≠ []) :
    ∃ r, parseLine (mkLine ds d b) = some r := by
  have hcolon : (':' : Char).isDigit = false := by decide
  have htake : (ds ++ ':' :: (d ++ ':' :: b)).takeWhile Char.isDigit = ds :=
    takeWhile_append_of ds ':' (d ++ ':' :: b) hdig hcolon
  have hdrop : (ds ++ ':' :: (d ++ ':' :: b)).dropWhile Char.isDigit = ':' :: (d ++ ':' :: b) :=
    dropWhile_append_of ds ':' (d ++ ':' :: b) hdig hcolon
  have hrev : (d ++ ':' :: b).reverse = b.reverse ++ ':' :: d.reverse := by simp
  rcases hbr : b.reverse with - | ⟨c, br⟩
  · exact absurd (by simpa using hbr) hb
  · have hsp : ∃ pq, splitRevColon [] (b.reverse ++ ':' :: d.reverse) = some pq := by
      rw [hbr, List.cons_append, splitRevColon, if_neg (by rintro ⟨-, h2, -⟩; exact h2 rfl)]
      exact splitRevColon_acc_some d.reverse (by simpa using hd) br [c] (by simp)
    rcases hsp with ⟨⟨p, q⟩, hsp⟩
    refine ⟨⟨ds, p, q⟩, ?_⟩
    unfold parseLine mkLine
    rw [htake, if_neg hds, hdrop]
    simp only [hrev, hsp]

theorem mem_insertId_self (ids : List Nat) (g : Nat) : g ∈ insertId ids g := by
  unfold insertId
  split_ifs with h
  · exact h
  · exact List.mem_cons_self g ids

theorem mem_insertId_of_mem {ids : List Nat} {t : Nat} (g : Nat) (h : t ∈ ids) :
    t ∈ insertId ids g := by
  unfold insertId
  split_ifs
  · exact h
  · exact List.mem_cons_of_mem g h

theorem mem_deleteId_of_ne {ids : List Nat} {t id : Nat} (h : t ∈ ids) (hne : t ≠ id) :
    t ∈ deleteId ids id :=
  List.mem_filter.mpr ⟨h, by simpa using hne⟩

theorem eraseLine_append_self {x : Str} : ∀ {ls : List Str}, x ∉ ls →
    eraseLine x (ls ++ [x]) = ls := by
  intro ls
  induction ls with
  | nil => intro _; rw [List.nil_append, eraseLine, if_pos rfl]
  | cons l ls' ih =>
    intro h
    have hne : ¬(l = x) := fun he => h (by rw [← he]; exact List.mem_cons_self l ls')
    rw [List.cons_append, eraseLine, if_neg hne,
      ih fun hm => h (List.mem_cons_of_mem l hm)]

/-- Deleting a parsed record's line from a well-formed line list keeps the
invariant components, with the record's tag released. -/
theorem inv_erase_parsed {ls : List Str} {ids : List Nat} {l : Str} {rr : Rec}
    (hok : LinesOK ls) (htags : ∀ t ∈ tagsL ls, t ∈ ids) (hnd : (tagsL ls).Nodup)
    (hpl : parseLine l = some rr) (hmem : l ∈ ls) :
    LinesOK (eraseLine l ls)
    ∧ (∀ t ∈ tagsL (eraseLine l ls), t ∈ deleteId ids (parseUint16Sat rr.tagStr))
    ∧ (tagsL (eraseLine l ls)).Nodup
    ∧ parseUint16Sat rr.tagStr ∉ tagsL (eraseLine l ls) := by
  rcases eraseLine_decomp hmem with ⟨ls1, ls2, hdec, hnm, herase⟩
  have htagseq : tagsL ls = tagsL ls1 ++ parseUint16Sat rr.tagStr :: tagsL ls2 := by
    rw [hdec, tagsL_append, tagsL_cons_some hpl]
  have hnd' : (tagsL ls1 ++ parseUint16Sat rr.tagStr :: tagsL ls2).Nodup := by
    rw [← htagseq]; exact hnd
  rw [List.nodup_append] at hnd'
  rcases hnd' with ⟨hnd1, hnd2c, hdisj⟩
  have hx2 : parseUint16Sat rr.tagStr ∉ tagsL ls2 := (List.nodup_cons.mp hnd2c).1
  have hnd2 : (tagsL ls2).Nodup := (List.nodup_cons.mp hnd2c).2
  have hx1 : parseUint16Sat rr.tagStr ∉ tagsL ls1 := fun hm =>
    hdisj hm (List.mem_cons_self _ _)
  have hmem_of : ∀ t, t ∈ tagsL ls1 ++ tagsL ls2 → t ∈ tagsL ls ∧ t ≠ parseUint16Sat rr.tagStr := by
    intro t ht
    rcases List.mem_append.mp ht with h1 | h1
    · refine ⟨by rw [htagseq]; exact List.mem_append_left _ h1, ?_⟩
      rintro rfl
      exact hx1 h1
    · refine ⟨by rw [htagseq]; exact List.mem_append_right _ (List.mem_cons_of_mem _ h1), ?_⟩
      rintro rfl
      exact hx2 h1
  refine ⟨fun y hy => hok y (eraseLine_subset hy), ?_, ?_, ?_⟩
  · intro t ht
    rw [herase, tagsL_append] at ht
    rcases hmem_of t ht with ⟨hin, hne⟩
    exact mem_deleteId_of_ne (htags t hin) hne
  · rw [herase, tagsL_append, List.nodup_append]
    exact ⟨hnd1, hnd2, fun a ha hb => hdisj ha (List.mem_cons_of_mem _ hb)⟩
  · rw [herase, tagsL_append]
    intro hm
    exact (hmem_of _ hm).2 rfl

theorem step_add_inv (s : QState) (d b : Str) (ap as rm : Bool)
    (hInv : Inv s) (hd : '\n' ∉ d) (hb : '\n' ∉ b) (hrm : rm = true) (hfree : freeTag s.ids) :
    Inv (step s (.add d b ap as rm)) := by
  subst hrm
  rcases hInv with ⟨ls, hok, hfile, htags, hnd⟩
  have hgfresh : generateId s.ids ∉ s.ids := generateId_not_mem hfree
  have hgle : generateId s.ids ≤ 65535 := generateId_le s.ids
  have hdigits := natToChars_isDigit (generateId s.ids)
  have hline_nn : mkLine (natToChars (generateId s.ids)) d b ≠ [] := mkLine_ne_nil _ _ _
  have hline_nl : '\n' ∉ mkLine (natToChars (generateId s.ids)) d b :=
    mkLine_no_newline hdigits hd hb
  have hokA : LinesOK (ls ++ [mkLine (natToChars (generateId s.ids)) d b]) := by
    intro x hx
    rcases List.mem_append.mp hx with h1 | h1
    · exact hok x h1
    · rcases List.mem_cons.mp h1 with rfl | h2
      · exact ⟨hline_nn, hline_nl⟩
      · simp at h2
  have hgnotin : generateId s.ids ∉ tagsL ls := fun hm => hgfresh (htags _ hm)
  have hfile2 : s.file ++ mkBlock (natToChars (generateId s.ids)) d b
      = flattenBlocks (ls ++ [mkLine (natToChars (generateId s.ids)) d b]) := by
    rw [hfile, flattenBlocks_append]
    simp [flattenBlocks, mkBlock]
  cases ap
  · have hA : step s (.add d b false as true)
        = ⟨s.file, deleteId (insertId s.ids (generateId s.ids)) (generateId s.ids)⟩ := by
      simp [step, Op.env, AddProject]
    rw [hA, deleteId_insertId hgfresh]
    exact ⟨ls, hok, hfile, htags, hnd⟩
  · cases as
    · have hA : step s (.add d b true false true)
          = ⟨removeFirst (mkBlock (natToChars (generateId s.ids)) d b)
               (s.file ++ mkBlock (natToChars (generateId s.ids)) d b),
             deleteId (insertId s.ids (generateId s.ids)) (generateId s.ids)⟩ := by
        simp [step, Op.env, AddProject]
      rw [hA, deleteId_insertId hgfresh, hfile2,
        show mkBlock (natToChars (generateId s.ids)) d b
          = mkBlockL (mkLine (natToChars (generateId s.ids)) d b) from rfl,
        removeFirst_flattenBlocks _ hline_nn hline_nl _ hokA]
      by_cases hmem : mkLine (natToChars (generateId s.ids)) d b ∈ ls
      · rcases hpl : parseLine (mkLine (natToChars (generateId s.ids)) d b) with - | rr
        · refine ⟨eraseLine _ (ls ++ [mkLine (natToChars (generateId s.ids)) d b]),
            fun y hy => hokA y (eraseLine_subset hy), rfl, ?_, ?_⟩
          · intro t ht
            have he : tagsL (eraseLine (mkLine (natToChars (generateId s.ids)) d b)
                (ls ++ [mkLine (natToChars (generateId s.ids)) d b]))
                = tagsL (ls ++ [mkLine (natToChars (generateId s.ids)) d b]) := by
              unfold tagsL
              rw [filterMap_eraseLine_none hpl]
            rw [he, tagsL_append, tagsL_cons_none hpl] at ht
            have ht' : t ∈ tagsL ls := by simpa [tagsL] using ht
            exact htags t ht'
          · have he : tagsL (eraseLine (mkLine (natToChars (generateId s.ids)) d b)
                (ls ++ [mkLine (natToChars (generateId s.ids)) d b]))
                = tagsL (ls ++ [mkLine (natToChars (generateId s.ids)) d b]) := by
              unfold tagsL
              rw [filterMap_eraseLine_none hpl]
            rw [he, tagsL_append, tagsL_cons_none hpl]
            simpa [tagsL] using hnd
        · exfalso
          have hts : rr.tagStr = natToChars (generateId s.ids) :=
            parseLine_mkLine_tagStr hdigits hpl
          have : generateId s.ids ∈ tagsL ls := by
            apply List.mem_map.mpr
            refine ⟨rr, List.mem_filterMap.mpr ⟨_, hmem, hpl⟩, ?_⟩
            rw [hts]
            exact parseUint16Sat_natToChars hgle
          exact hgnotin this
      · rw [eraseLine_append_self hmem]
        exact ⟨ls, hok, rfl, htags, hnd⟩
    · have hA : step s (.add d b true true true)
          = ⟨s.file ++ mkBlock (natToChars (generateId s.ids)) d b,
             insertId s.ids (generateId s.ids)⟩ := by
        simp [step, Op.env, AddProject]
      rw [hA, hfile2]
      refine ⟨ls ++ [mkLine (natToChars (generateId s.ids)) d b], hokA, rfl, ?_, ?_⟩
      · intro t ht
        rw [tagsL_append] at ht
        rcases List.mem_append.mp ht with h1 | h1
        · exact mem_insertId_of_mem _ (htags t h1)
        · rcases hpl : parseLine (mkLine (natToChars (generateId s.ids)) d b) with - | rr
          · rw [tagsL_cons_none hpl] at h1
            simp [tagsL] at h1
          · rw [tagsL_cons_some hpl] at h1
            have hts : rr.tagStr = natToChars (generateId s.ids) :=
              parseLine_mkLine_tagStr hdigits hpl
            have hsat : parseUint16Sat rr.tagStr = generateId s.ids := by
              rw [hts]; exact parseUint16Sat_natToChars hgle
            rcases List.mem_cons.mp h1 with rfl | h2
            · rw [hsat]; exact mem_insertId_self s.ids _
            · simp [tagsL] at h2
      · rw [tagsL_append]
        rcases hpl : parseLine (mkLine (natToChars (generateId s.ids)) d b) with - | rr
        · rw [tagsL_cons_none hpl]
          simpa [tagsL] using hnd
        · have hts : rr.tagStr = natToChars (generateId s.ids) :=
            parseLine_mkLine_tagStr hdigits hpl
          have hsat : parseUint16Sat rr.tagStr = generateId s.ids := by
            rw [hts]; exact parseUint16Sat_natToChars hgle
          rw [tagsL_cons_some hpl, hsat]
          rw [List.nodup_append]
          refine ⟨hnd, by simp [tagsL], ?_⟩
          intro a ha hb2
          have : a = generateId s.ids := by
            rcases List.mem_cons.mp hb2 with h3 | h3
            · exact h3
            · simp [tagsL] at h3
          exact hgnotin (this ▸ ha)

theorem step_remove_inv (s : QState) (blk : Str) (id : Nat) (rm : Bool)
    (hInv : Inv s) (hrm : rm = true) (hid : id ≤ 65535)
    (hshape : ∃ d b, d ≠ [] ∧ b ≠ [] ∧ '\n' ∉ d ∧ '\n' ∉ b ∧ blk = mkBlock (natToChars id) d b)
    (hor : occursB blk s.file = true ∨ id ∉ parsedTags s.file) :
    Inv (step s (.remove blk id rm)) := by
  subst hrm
  rcases hInv with ⟨ls, hok, hfile, htags, hnd⟩
  rcases hshape with ⟨d, b, hdnn, hbnn, hdnl, hbnl, hblk⟩
  subst hblk
  have hdigits := natToChars_isDigit id
  have hline_nn := mkLine_ne_nil (natToChars id) d b
  have hline_nl := mkLine_no_newline hdigits hdnl hbnl
  have hA : step s (.remove (mkBlock (natToChars id) d b) id true)
      = ⟨removeFirst (mkBlock (natToChars id) d b) s.file, deleteId s.ids id⟩ := by
    simp [step, Op.env, RemoveProject]
  rw [hA, hfile,
    show mkBlock (natToChars id) d b = mkBlockL (mkLine (natToChars id) d b) from rfl,
    removeFirst_flattenBlocks _ hline_nn hline_nl ls hok]
  rcases parseLine_mkLine_some (natToChars id) d b (natToChars_ne_nil id) hdigits hdnn hbnn
    with ⟨rr, hpl⟩
  have hsat : parseUint16Sat rr.tagStr = id := by
    rw [parseLine_mkLine_tagStr hdigits hpl]
    exact parseUint16Sat_natToChars hid
  by_cases hmem : mkLine (natToChars id) d b ∈ ls
  · rcases inv_erase_parsed hok htags hnd hpl hmem with ⟨h1, h2, h3, -⟩
    rw [hsat] at h2
    exact ⟨_, h1, rfl, h2, h3⟩
  · rw [eraseLine_not_mem hmem]
    have hidnot : id ∉ tagsL ls := by
      rcases hor with hocc | hno
      · exfalso
        rw [hfile] at hocc
        exact hmem ((occursB_flattenBlocks _ hline_nn hline_nl ls hok).mp hocc)
      · rw [hfile, parsedTags_flattenBlocks ls hok] at hno
        exact hno
    refine ⟨ls, hok, rfl, ?_, hnd⟩
    intro t ht
    exact mem_deleteId_of_ne (htags t ht) fun he => hidnot (he ▸ ht)

theorem restoreGo_inv (env : Env) (hrm : env.removeOk = true) :
    ∀ (rs : List Rec) (s : QState), Inv s → (∀ r ∈ rs, r ∈ parseRecords s.file) → rs.Nodup →
      Inv (restoreGo env s rs).state := by
  intro rs
  induction rs with
  | nil => intro s h _ _; exact h
  | cons r rs ih =>
    intro s hInv hpres hndr
    by_cases hd : env.dirExists r.dir = true
    · rcases hSQ : SetQuota env s (parseUint16Sat r.tagStr) r.dir r.bhard with ⟨e1, evs⟩
      cases e1 with
      | some e =>
        have hout : (restoreGo env s (r :: rs)).state = s := by simp [restoreGo, hd, hSQ]
        rw [hout]; exact hInv
      | none =>
        have hout : (restoreGo env s (r :: rs)).state = (restoreGo env s rs).state := by
          simp [restoreGo, hd, hSQ]
        rw [hout]
        exact ih s hInv (fun r' hr' => hpres r' (List.mem_cons_of_mem r hr'))
          (List.nodup_cons.mp hndr).2
    · have hd' : env.dirExists r.dir = false := by simpa using hd
      have hro : (RemoveProject env s r.block (parseUint16Sat r.tagStr)).state
          = ⟨removeFirst r.block s.file, deleteId s.ids (parseUint16Sat r.tagStr)⟩ := by
        simp [RemoveProject, hrm]
      have hout : (restoreGo env s (r :: rs)).state
          = (restoreGo env (RemoveProject env s r.block (parseUint16Sat r.tagStr)).state
              rs).state := by
        simp [restoreGo, hd']
      rw [hout, hro]
      rcases hInv with ⟨ls, hok, hfile, htags, hnd⟩
      have hrm1 : r ∈ parseRecords s.file := hpres r (List.mem_cons_self r rs)
      rw [hfile, parseRecords_flattenBlocks ls hok] at hrm1
      rcases List.mem_filterMap.mp hrm1 with ⟨l, hlm, hpl⟩
      have hlfacts := hok l hlm
      have hline : l = mkLine r.tagStr r.dir r.bhard := (parseLine_inv hpl).1
      have hblock : r.block = mkBlockL l := by rw [Rec.block, ← hline]
      rcases inv_erase_parsed hok htags hnd hpl hlm with ⟨h1, h2, h3, -⟩
      have hsInv : Inv ⟨removeFirst r.block s.file, deleteId s.ids (parseUint16Sat r.tagStr)⟩ := by
        refine ⟨eraseLine l ls, h1, ?_, h2, h3⟩
        rw [hfile, hblock, removeFirst_flattenBlocks l hlfacts.1 hlfacts.2 ls hok]
      have hpres' : ∀ r' ∈ rs, r' ∈ parseRecords (removeFirst r.block s.file) := by
        intro r' hr'
        have hr'mem : r' ∈ List.filterMap parseLine ls := by
          have := hpres r' (List.mem_cons_of_mem r hr')
          rwa [hfile, parseRecords_flattenBlocks ls hok] at this
        rcases List.mem_filterMap.mp hr'mem with ⟨l', hl'm, hpl'⟩
        have hrne : r' ≠ r := fun he => (List.nodup_cons.mp hndr).1 (he ▸ hr')
        have hlne : l' ≠ l := fun he => by
          rw [he, hpl] at hpl'
          exact hrne (Option.some.inj hpl').symm
        rw [hblock, hfile, removeFirst_flattenBlocks l hlfacts.1 hlfacts.2 ls hok,
          parseRecords_flattenBlocks _ h1]
        exact List.mem_filterMap.mpr ⟨l', mem_eraseLine_of_ne hlne hl'm, hpl'⟩
      exact ih _ hsInv hpres' (List.nodup_cons.mp hndr).2

theorem step_restore_inv (s : QState) (dx : Str → Bool) (lk : Nat → Str → Str → Bool)
    (rm : Bool) (hInv : Inv s) (hrm : rm = true) : Inv (step s (.restoreOp dx lk rm)) := by
  subst hrm
  have hA : step s (.restoreOp dx lk true)
      = (restoreGo (Op.env (.restoreOp dx lk true)) s (parseRecords s.file)).state := by
    simp [step, restoreQuotas, Op.env]
  rw [hA]
  have hndr : (parseRecords s.file).Nodup := by
    rcases hInv with ⟨ls, hok, hfile, htags, hnd⟩
    rw [hfile, parseRecords_flattenBlocks ls hok]
    exact List.Nodup.of_map _ hnd
  exact restoreGo_inv _ rfl (parseRecords s.file) s hInv (fun r hr => hr) hndr

/-- C5 counterexample: the claim's invariant fails on the code as stated.
Starting from the empty state: `AddProject("/d","5")` hands out tag `1` and
appends its block; `RemoveProject` with that token releases tag `1` but its
file removal fails, leaving the record in the projects file; the next
`AddProject` then hands out tag `1` again while the record carrying tag `1`
is still present. -/
theorem tag_reuse_cex :
    reuseFreeB ⟨[], []⟩
      [.add ['/', 'd'] ['5'] true true true,
       .remove (mkBlock (natToChars 1) ['/', 'd'] ['5']) 1 false,
       .add ['/', 'd'] ['5'] true true true] = false := by
  decide

/-- C5 (amended: the guarantee holds only when every file operation
succeeds — a failed `RemoveProject` file removal releases the tag while its
record stays, enabling reuse): over every sequence of `AddProject`,
`RemoveProject` and restore requests in which all file appends and removals
succeed, `AddProject` arguments contain no newline, the tag space is not
exhausted, and each `RemoveProject` receives a token of the block shape
built for its tag whose block occurs in the file (or whose tag has no
record), starting from a well-formed state, no `AddProject` ever hands out a
tag carried by a record still present in the projects file; well-formedness
is preserved across the run. -/
theorem tag_never_reused : ∀ (ops : List Op) (s : QState), Inv s → OpsGood s ops →
    reuseFreeB s ops = true ∧ Inv (run s ops) := by
  intro ops
  induction ops with
  | nil => intro s h _; exact ⟨rfl, h⟩
  | cons op ops ih =>
    intro s hInv hops
    have hstep : Inv (step s op) := by
      cases op with
      | add d b ap as rm =>
        rcases hops.1 with ⟨h1, h2, h3, h4⟩
        exact step_add_inv s d b ap as rm hInv h1 h2 h3 h4
      | remove blk id rm =>
        rcases hops.1 with ⟨h1, h2, h3, h4⟩
        exact step_remove_inv s blk id rm hInv h1 h2 h3 h4
      | restoreOp dx lk rm =>
        exact step_restore_inv s dx lk rm hInv hops.1
    rcases ih (step s op) hstep hops.2 with ⟨hrest1, hrest2⟩
    refine ⟨?_, hrest2⟩
    rw [reuseFreeB, hrest1, Bool.and_true]
    cases op with
    | add d b ap as rm =>
      rcases hops.1 with ⟨-, -, -, h4⟩
      rcases hInv with ⟨ls, hok, hfile, htags, hnd⟩
      have hnot : generateId s.ids ∉ parsedTags s.file := by
        rw [hfile, parsedTags_flattenBlocks ls hok]
        exact fun hm => generateId_not_mem h4 (htags _ hm)
      simp [addFresh, hnot]
    | remove blk id rm => rfl
    | restoreOp dx lk rm => rfl

theorem tag_never_reused_witness :
    Inv ⟨[], []⟩ ∧ OpsGood ⟨[], []⟩ [.add ['/', 'd'] ['5'] true true true]
    ∧ reuseFreeB ⟨[], []⟩ [.add ['/', 'd'] ['5'] true true true] = true := by
  have hInv : Inv ⟨[], []⟩ :=
    ⟨[], fun l h => absurd h (List.not_mem_nil l), rfl,
     fun t h => absurd h (by simp [tagsL]), by simp [tagsL]⟩
  have hops : OpsGood ⟨[], []⟩ [.add ['/', 'd'] ['5'] true true true] :=
    ⟨⟨by decide, by decide, rfl, ⟨1, by decide⟩⟩, trivial⟩
  exact ⟨hInv, hops, (tag_never_reused _ _ hInv hops).1⟩

end Quota
